import Mathlib

/-!
Shallow embedding of the JSON parser in
src/challenges/04_json_parser/python/json_parser.py (a hand-written
recursive-descent parser over a character sequence with a cursor).

Modelling conventions:
* A Python string is a `List Char`; the tokenizer state is the remaining
  input `rest : List Char` together with the absolute cursor `p : Nat`
  (the code stores the full input and an index; `rest` is the suffix of
  the input starting at the index, which every tokenizer operation keeps
  in lockstep with the index, except that `advance` past the end keeps
  incrementing the index while `rest` stays `[]`, exactly as the code's
  `_position += 1` keeps running past `len(self._input)`).
* Python exceptions are an explicit error type `Err`: `parseError`
  models the code's `ParseError(message, position)`; `valueError` and
  `indexError` model the builtin exceptions that unguarded calls such as
  `int(hex_chars, 16)` or negative indexing can raise.  `outOfFuel` is
  an artifact of the fuel parameter that bounds the mutual recursion of
  `parseValue` / `arrayItems` / `objectItems`; `parse` supplies fuel
  `2 * |input| + 2`.
* Decoded string contents are lists of code points (`List Nat`), because
  `chr` on a `\uXXXX` escape may produce lone surrogates, which are
  Python characters but not Lean `Char`s.
* `float(num_value)` (conversion of the consumed literal to an IEEE
  double) is abstracted: the `Value.float` variant records the consumed
  literal itself, since no claim depends on the numeric value of a
  float, only on the Integer/Float classification.
* `str.isdigit` is modelled on the ASCII range only; Python additionally
  classifies some non-ASCII code points (e.g. superscripts) as digits,
  which this development does not model.  `str.isspace` is modelled with
  the full Unicode whitespace set Python uses.
-/

/-- Python exceptions that can escape the parser, plus the fuel artifact. -/
inductive Err where
  | parseError (msg : String) (pos : Nat)
  | valueError
  | indexError
  | outOfFuel
deriving DecidableEq, Repr

/-- The parsed JSON value tree.  `float` records the consumed literal (see
module comment); `str` and object keys are lists of code points. -/
inductive Value where
  | null
  | bool (b : Bool)
  | int (n : Int)
  | float (lit : List Char)
  | str (cs : List Nat)
  | arr (elems : List Value)
  | obj (entries : List (List Nat × Value))
deriving Repr

/-- Result of a parsing step: error, or payload with the remaining input
and the new cursor position. -/
abbrev PRes (α : Type) := Except Err (α × List Char × Nat)

/-- Models Python `str.isspace` (the code's
`self.current_char.isspace()`): the Unicode whitespace code points. -/
def pyIsSpace (c : Char) : Bool :=
  let n := c.toNat
  (9 ≤ n && n ≤ 13) || (28 ≤ n && n ≤ 31) || n = 32 || n = 0x85 || n = 0xa0 ||
    n = 0x1680 || (0x2000 ≤ n && n ≤ 0x200a) || n = 0x2028 || n = 0x2029 ||
    n = 0x202f || n = 0x205f || n = 0x3000

/-- Models Python `str.isdigit` on the ASCII range, by code point
(see module comment). -/
def pyIsDigit (c : Char) : Bool :=
  48 ≤ c.toNat && c.toNat ≤ 57

/-- How Python interpolates `Optional[str]` into an f-string:
`None` prints as `None`, a character prints as itself.  Used for the
`f"Expected '{char}' but got '{self.current_char}'"` messages. -/
def showOptChar : Option Char → String
  | none => "None"
  | some c => String.singleton c

/-- `Tokenizer.advance` (json_parser.py lines 39-42): returns the current
character (`none` at/after end of input) and always increments the
cursor, even past the end. -/
def advance : List Char → Nat → Option Char × List Char × Nat
  | [], p => (none, [], p + 1)
  | c :: cs, p => (some c, cs, p + 1)

/-- `Tokenizer.skip_whitespace` (lines 44-46): advance over a maximal run
of whitespace characters. -/
def skipWs : List Char → Nat → List Char × Nat
  | [], p => ([], p)
  | c :: cs, p => if pyIsSpace c then skipWs cs (p + 1) else (c :: cs, p)

/-- `Tokenizer.expect` (lines 51-56): if the current character equals the
expected one, advance; otherwise raise ParseError at the current
(unadvanced) position.  The code's parameter is a string; every call
site passes a single character, modelled as `Char`. -/
def expect (ch : Char) (rest : List Char) (p : Nat) : PRes Unit :=
  if rest.head? = some ch then
    .ok ((), rest.tail, p + 1)
  else
    .error (.parseError
      ("Expected \x27" ++ String.singleton ch ++ "\x27 but got \x27" ++
        showOptChar rest.head? ++ "\x27") p)

/-- Python `s[i]` on a string: nonnegative indices from the front,
negative indices from the end, `IndexError` outside `[-len, len)`. -/
def pyGetItem (s : List Char) (i : Int) : Except Err Char :=
  let j : Int := if i < 0 then (s.length : Int) + i else i
  if 0 ≤ j ∧ j < (s.length : Int) then
    match s[j.toNat]? with
    | some c => .ok c
    | none => .error .indexError
  else
    .error .indexError

/-- `Tokenizer.peek` (lines 33-37): `pos = cursor + offset`; `none` when
`pos >= len`, otherwise Python indexing `input[pos]` (which, for a
negative `pos`, indexes from the end or raises IndexError).  `offset` is
a Python int, so it is modelled as `Int`.  Pure: the cursor is not
part of the result. -/
def peek (input : List Char) (cursor : Nat) (offset : Int) : Except Err (Option Char) :=
  let pos : Int := (cursor : Int) + offset
  if (input.length : Int) ≤ pos then
    .ok none
  else
    match pyGetItem input pos with
    | .ok c => .ok (some c)
    | .error e => .error e

/-- `JSONParser._expect_keyword` (lines 109-116): advance once per
keyword character; on the first mismatch raise ParseError at the
position *after* the advance, with the expected/actual characters in
the message. -/
def expectKeyword (kw : List Char) (rest : List Char) (p : Nat) : PRes Unit :=
  match kw with
  | [] => .ok ((), rest, p)
  | e :: es =>
    match advance rest p with
    | (a, rest', p') =>
      if a = some e then
        expectKeyword es rest' p'
      else
        .error (.parseError
          ("Expected \x27" ++ String.singleton e ++ "\x27 but got \x27" ++
            showOptChar a ++ "\x27") p')

/-- Value of a single hexadecimal digit character (`0`-`9`, `a`-`f`,
`A`-`F` by code point), `none` otherwise. -/
def hexDigit? (c : Char) : Option Nat :=
  if 48 ≤ c.toNat ∧ c.toNat ≤ 57 then some (c.toNat - 48)
  else if 97 ≤ c.toNat ∧ c.toNat ≤ 102 then some (c.toNat - 87)
  else if 65 ≤ c.toNat ∧ c.toNat ≤ 70 then some (c.toNat - 55)
  else none

/-- Digit/underscore scanner for Python `int(s, 16)`: `seen` records
whether a digit has appeared, `allow` whether an underscore may appear
here (only directly after a digit or after the `0x` prefix); the string
is valid iff it ends right after a digit. -/
def hexCore : List Char → Bool → Bool → Nat → Option Nat
  | [], seen, allow, acc => if seen && allow then some acc else none
  | c :: cs, seen, allow, acc =>
    match hexDigit? c with
    | some d => hexCore cs true true (16 * acc + d)
    | none => if c = '_' && allow then hexCore cs seen false acc else none

/-- Python `str.strip()` as used by `int`: drop leading and trailing
whitespace. -/
def pyStrip (s : List Char) : List Char :=
  ((s.dropWhile pyIsSpace).reverse.dropWhile pyIsSpace).reverse

/-- Unsigned part of Python `int(s, 16)`: optional `0x`/`0X` prefix
(after which an underscore is permitted), then hex digits with single
underscores between digits. -/
def hexBody (s : List Char) : Option Nat :=
  if s.head? = some '0' ∧ (s.tail.head? = some 'x' ∨ s.tail.head? = some 'X') then
    hexCore s.tail.tail false true 0
  else hexCore s false false 0

/-- Models Python `int(s, 16)` (the code's `int(hex_chars, 16)`,
line 153): optional surrounding whitespace, optional sign, optional
`0x` prefix, hex digits with single underscores between digits;
`none` models the `ValueError` Python raises otherwise. -/
def pyIntHex (s : List Char) : Option Int :=
  if (pyStrip s).head? = some '-' then
    Option.map (fun n => -(Int.ofNat n)) (hexBody (pyStrip s).tail)
  else if (pyStrip s).head? = some '+' then
    Option.map (fun n => Int.ofNat n) (hexBody (pyStrip s).tail)
  else Option.map (fun n => Int.ofNat n) (hexBody (pyStrip s))

/-- Models Python `chr(n)` (line 153): the code point `n` when
`0 ≤ n < 0x110000` (lone surrogates included), `none` models the
`ValueError` raised outside that range. -/
def pyChr (n : Int) : Option Nat :=
  if 0 ≤ n ∧ n < 0x110000 then some n.toNat else none

/-- Decimal value of a digit string (each character an ASCII digit). -/
def digitsToNat (s : List Char) : Nat :=
  s.foldl (fun acc c => 10 * acc + (c.toNat - 48)) 0

/-- Models Python `int(num_value)` (line 208) on the sign-plus-digits
strings `_parse_number` builds: the exact signed decimal value. -/
def pyIntDec : List Char → Int
  | [] => (digitsToNat [] : Int)
  | c :: ds => if c = '-' then -(digitsToNat ds : Int) else (digitsToNat (c :: ds) : Int)

/-- The `escape_map` dict of `_parse_escape_sequence` (lines 139-146),
as the code-point lookup `char ↦ escape_map.get(char)`. -/
def escapeMap (c : Char) : Option Nat :=
  if c = 'n' then some 10
  else if c = 't' then some 9
  else if c = 'r' then some 13
  else if c = '"' then some 34
  else if c = '\\' then some 92
  else if c = '/' then some 47
  else none

/-- `chr(int(hex_chars, 16))` (line 153) on the collected characters:
`valueError` when `int` rejects the string or `chr` rejects the (for
instance negative) code point. -/
def uEscape (hexChars : List Char) : Except Err Nat :=
  match pyIntHex hexChars with
  | some n =>
    match pyChr n with
    | some code => .ok code
    | none => .error .valueError
  | none => .error .valueError

/-- `JSONParser._parse_escape_sequence` (lines 136-157): advance one
character; decode the six simple escapes via `escape_map`; on `u`,
advance four more times (contributing `""` for each advance past the
end), join the collected characters and apply `chr(int(·, 16))`, where
a malformed sequence raises ValueError, not ParseError; on any other
character (or end of input, where the advanced character is `None`)
raise ParseError at the position after the advance. -/
def parseEscape (rest : List Char) (p : Nat) : PRes Nat :=
  match rest with
  | [] => .error (.parseError "Invalid escape sequence: \\None" (p + 1))
  | c :: cs =>
    match escapeMap c with
    | some code => .ok (code, cs, p + 1)
    | none =>
      if c = 'u' then
        match uEscape (cs.take 4) with
        | .ok code => .ok (code, cs.drop 4, p + 5)
        | .error e => .error e
      else
        .error (.parseError ("Invalid escape sequence: \\" ++ String.singleton c) (p + 1))

/-- One advance of `_parse_string`'s loop (lines 122-132), carried out on
the remaining input: end of input raises `Unterminated string` at the
position after the advance; `"` ends the string; `\` decodes one escape
sequence and continues; anything else is appended verbatim (as its code
point).  The loop is bounded by a fuel parameter (an embedding
artifact: every continuing iteration consumes at least one remaining
character, so `parseString`'s fuel `|rest| + 1` is never exhausted; no
theorem below ever relies on an `outOfFuel` result). -/
def parseStringBody : Nat → List Char → Nat → List Nat → PRes (List Nat)
  | 0, _, _, _ => .error .outOfFuel
  | f + 1, rest, p, acc =>
    match rest with
    | [] => .error (.parseError "Unterminated string" (p + 1))
    | c :: cs =>
      if c = '"' then .ok (acc, cs, p + 1)
      else if c = '\\' then
        match parseEscape cs (p + 1) with
        | .ok (n, r, p') => parseStringBody f r p' (acc ++ [n])
        | .error e => .error e
      else parseStringBody f cs (p + 1) (acc ++ [c.toNat])

/-- `JSONParser._parse_string` (lines 118-134): consume the opening
quote, then run the loop. -/
def parseString (rest : List Char) (p : Nat) : PRes (List Nat) :=
  match advance rest p with
  | (_, rest', p') => parseStringBody (rest'.length + 1) rest' p' []

/-- Maximal run of leading ASCII digits (the code's
`while current_char and current_char.isdigit(): append(advance())`
loops in `_parse_number`). -/
def digitRun : List Char → List Char × List Char
  | [] => ([], [])
  | c :: cs =>
    if pyIsDigit c then
      match digitRun cs with
      | (ds, r) => (c :: ds, r)
    else ([], c :: cs)

/-- The sign step of `_parse_number` (lines 162-164, 負号): consume a
leading `-` if present; returns the consumed characters, the remaining
input and the new position. -/
def numSign (rest : List Char) (p : Nat) : List Char × List Char × Nat :=
  if rest.head? = some '-' then (['-'], rest.tail, p + 1) else ([], rest, p)

/-- The integer-part step of `_parse_number` (lines 166-173, 整数部):
if the current character is `0`, exactly one `0` is consumed (even if
more digits follow); otherwise a maximal nonempty digit run; otherwise
`Expected digit` at the current position. -/
def numIntPart (rest : List Char) (p : Nat) : PRes (List Char) :=
  if rest.head? = some '0' then .ok (['0'], rest.tail, p + 1)
  else
    match rest with
    | c :: cs =>
      if pyIsDigit c then
        match digitRun (c :: cs) with
        | (ds, r) => .ok (ds, r, p + ds.length)
      else .error (.parseError "Expected digit" p)
    | [] => .error (.parseError "Expected digit" p)

/-- The fraction step of `_parse_number` (lines 177-189, 小数部):
a `.` (setting the float flag) must be followed by at least one digit,
else `Expected digit after decimal point` at the position after the
`.`; no `.` consumes nothing.  Returns the consumed characters and the
float flag. -/
def numFracPart (rest : List Char) (p : Nat) : PRes (List Char × Bool) :=
  if rest.head? = some '.' then
    match rest.tail with
    | c :: cs =>
      if pyIsDigit c then
        match digitRun (c :: cs) with
        | (ds, r) => .ok (('.' :: ds, true), r, p + 1 + ds.length)
      else .error (.parseError "Expected digit after decimal point" (p + 1))
    | [] => .error (.parseError "Expected digit after decimal point" (p + 1))
  else .ok (([], false), rest, p)

/-- The exponent step of `_parse_number` (lines 191-205, 指数部):
`e`/`E` (setting the float flag), an optional `+`/`-`, then at least
one digit, else `Expected digit in exponent` at the current position;
no marker consumes nothing. -/
def numExpPart (rest : List Char) (p : Nat) : PRes (List Char × Bool) :=
  if rest.head? = some 'e' ∨ rest.head? = some 'E' then
    match rest with
    | m :: rest1 =>
      match (if rest1.head? = some '+' ∨ rest1.head? = some '-' then
          (rest1.take 1, rest1.drop 1, p + 2) else (([] : List Char), rest1, p + 1)) with
      | (sStr, rest2, p2) =>
        match rest2 with
        | c :: cs =>
          if pyIsDigit c then
            match digitRun (c :: cs) with
            | (ds, r) => .ok ((m :: (sStr ++ ds), true), r, p2 + ds.length)
          else .error (.parseError "Expected digit in exponent" p2)
        | [] => .error (.parseError "Expected digit in exponent" p2)
    | [] => .error (.parseError "Expected digit in exponent" p)
  else .ok (([], false), rest, p)

/-- `JSONParser._parse_number` (lines 159-208): sign, integer part,
optional fraction, optional exponent; the result is
`float(num_str)` when either float flag is set (recorded as the
consumed literal, see module comment), else `int(num_str)`, where
`num_str` is the list of consumed characters. -/
def parseNumber (rest : List Char) (p : Nat) : PRes Value :=
  match numSign rest p with
  | (sgnStr, rest1, p1) =>
    match numIntPart rest1 p1 with
    | .error e => .error e
    | .ok (intStr, rest2, p2) =>
      match numFracPart rest2 p2 with
      | .error e => .error e
      | .ok ((fracStr, isF1), rest3, p3) =>
        match numExpPart rest3 p3 with
        | .error e => .error e
        | .ok ((expStr, isF2), rest6, p6) =>
          let numStr := sgnStr ++ intStr ++ fracStr ++ expStr
          if isF1 || isF2 then .ok (.float numStr, rest6, p6)
          else .ok (.int (pyIntDec numStr), rest6, p6)

/-- `obj[key] = value` on a Python dict modelled as an insertion-ordered
association list: overwrite in place when the key is present, append
otherwise (line 261). -/
def dictAssign (l : List (List Nat × Value)) (k : List Nat) (v : Value) :
    List (List Nat × Value) :=
  match l with
  | [] => [(k, v)]
  | (k', v') :: t => if k' = k then (k', v) :: t else (k', v') :: dictAssign t k v

/-- First-match association-list lookup (what `obj[key]` would read
back). -/
def lookupVal (l : List (List Nat × Value)) (k : List Nat) : Option Value :=
  match l with
  | [] => none
  | (k', v') :: t => if k' = k then some v' else lookupVal t k

mutual

/-- `JSONParser._parse_value` (lines 76-95): skip whitespace, dispatch on
the current character; also inlines the openers of `_parse_array`
(lines 210-219) and `_parse_object` (lines 237-246): consume the
bracket, skip whitespace, handle the empty container, else enter the
loop. -/
def parseValue : Nat → List Char → Nat → PRes Value
  | 0, _, _ => .error .outOfFuel
  | f + 1, rest, p =>
    match skipWs rest p with
    | (r, q) =>
      match r.head? with
      | none => .error (.parseError "Unexpected end of input" q)
      | some c =>
        if c = 'n' then
          match expectKeyword ['n', 'u', 'l', 'l'] r q with
          | .ok (_, r', q') => .ok (.null, r', q')
          | .error e => .error e
        else if c = 't' ∨ c = 'f' then
          if c = 't' then
            match expectKeyword ['t', 'r', 'u', 'e'] r q with
            | .ok (_, r', q') => .ok (.bool true, r', q')
            | .error e => .error e
          else
            match expectKeyword ['f', 'a', 'l', 's', 'e'] r q with
            | .ok (_, r', q') => .ok (.bool false, r', q')
            | .error e => .error e
        else if c = '"' then
          match parseString r q with
          | .ok (cs, r', q') => .ok (.str cs, r', q')
          | .error e => .error e
        else if c = '[' then
          -- _parse_array: consume '[', skip whitespace, empty check
          match skipWs r.tail (q + 1) with
          | (r1, q1) =>
            if r1.head? = some ']' then .ok (.arr [], r1.tail, q1 + 1)
            else arrayItems f [] r1 q1
        else if c = '{' then
          -- _parse_object: consume '{', skip whitespace, empty check
          match skipWs r.tail (q + 1) with
          | (r1, q1) =>
            if r1.head? = some '}' then .ok (.obj [], r1.tail, q1 + 1)
            else objectItems f [] r1 q1
        else if c = '-' ∨ pyIsDigit c then
          parseNumber r q
        else
          .error (.parseError
            ("Unexpected character: \x27" ++ String.singleton c ++ "\x27") q)

/-- The `while True` loop of `_parse_array` (lines 221-235): parse a
value, skip whitespace, then `,` (consume, skip whitespace, continue)
or `]` (consume, stop), else `Expected ',' or ']'`. -/
def arrayItems : Nat → List Value → List Char → Nat → PRes Value
  | 0, _, _, _ => .error .outOfFuel
  | f + 1, acc, rest, p =>
    match parseValue f rest p with
    | .error e => .error e
    | .ok (v, r1, p1) =>
      match skipWs r1 p1 with
      | (r2, p2) =>
        if r2.head? = some ',' then
          match skipWs r2.tail (p2 + 1) with
          | (r3, p3) => arrayItems f (acc ++ [v]) r3 p3
        else if r2.head? = some ']' then
          .ok (.arr (acc ++ [v]), r2.tail, p2 + 1)
        else
          .error (.parseError "Expected \x27,\x27 or \x27]\x27" p2)

/-- The `while True` loop of `_parse_object` (lines 248-274): skip
whitespace, require `"` to start a key (else `Expected string key`),
parse the key string, skip whitespace, `expect(':')`, parse a value,
`obj[key] = value`, skip whitespace, then `,` (consume, continue) or
`}` (consume, stop), else `Expected ',' or '}'`. -/
def objectItems : Nat → List (List Nat × Value) → List Char → Nat → PRes Value
  | 0, _, _, _ => .error .outOfFuel
  | f + 1, acc, rest, p =>
    match skipWs rest p with
    | (r1, p1) =>
      if r1.head? = some '"' then
        match parseString r1 p1 with
        | .error e => .error e
        | .ok (key, r2, p2) =>
          match skipWs r2 p2 with
          | (r3, p3) =>
            match expect ':' r3 p3 with
            | .error e => .error e
            | .ok (_, r4, p4) =>
              match parseValue f r4 p4 with
              | .error e => .error e
              | .ok (v, r5, p5) =>
                let acc' := dictAssign acc key v
                match skipWs r5 p5 with
                | (r6, p6) =>
                  if r6.head? = some ',' then
                    objectItems f acc' r6.tail (p6 + 1)
                  else if r6.head? = some '}' then
                    .ok (.obj acc', r6.tail, p6 + 1)
                  else
                    .error (.parseError "Expected \x27,\x27 or \x27\x7d\x27" p6)
      else
        .error (.parseError "Expected string key" p1)

end

/-- `JSONParser.parse` (lines 64-74): skip whitespace, parse one value,
skip whitespace, then fail with `Unexpected characters after JSON
value` unless at end of input.  Fuel `2 * |input| + 2` bounds the
mutual recursion (each level of nesting consumes at least one input
character, and each hop in the `parseValue`/loop mutual recursion
consumes at most two fuel units per consumed character). -/
def parse (input : List Char) : Except Err Value :=
  match skipWs input 0 with
  | (r, p) =>
    match parseValue (2 * input.length + 2) r p with
    | .error e => .error e
    | .ok (v, r1, p1) =>
      match skipWs r1 p1 with
      | (r2, p2) =>
        if r2.isEmpty then .ok v
        else .error (.parseError "Unexpected characters after JSON value" p2)

/-- `parse_json` (lines 278-279): construct the parser and run it. -/
def parseJson (input : List Char) : Except Err Value :=
  parse input


/-! ## Helper lemmas -/

/-- `uEscape` never raises a `ParseError`: its only failure is the
ValueError from `int`/`chr`. -/
theorem uEscape_error (hexChars : List Char) (e : Err) :
    uEscape hexChars = .error e → e = .valueError := by
  intro h
  unfold uEscape at h
  split at h
  · split at h
    · cases h
    · cases h; rfl
  · cases h; rfl

/-! ## C10 -/

/-- C10: `Tokenizer.expect(ch)` is atomic on failure: whenever the
current character differs from `ch` (including at end of input) it
raises a ParseError carrying the current (unadvanced) cursor position
`p`, producing no advanced state; it advances the cursor by exactly one
only on success. -/
theorem expect_atomic (ch : Char) (rest : List Char) (p : Nat) :
    (rest.head? = some ch → expect ch rest p = .ok ((), rest.tail, p + 1)) ∧
    (rest.head? ≠ some ch → expect ch rest p =
      .error (.parseError
        ("Expected \x27" ++ String.singleton ch ++ "\x27 but got \x27" ++
          showOptChar rest.head? ++ "\x27") p)) := by
  constructor
  · intro h; simp [expect, h]
  · intro h; simp [expect, h]

/-- Witness for `expect_atomic` at a concrete mismatching input. -/
theorem expect_atomic_witness :
    expect ':' ['a'] 5 =
      .error (.parseError "Expected \x27:\x27 but got \x27a\x27" 5) :=
  (expect_atomic ':' ['a'] 5).2 (by decide)

/-! ## C5 (corrected) -/

/-- C5 counterexample: with cursor 0 and offset -1 the index
`cursor + offset = -1` is out of bounds (before index 0), yet `peek`
returns the *last* character of the input (Python negative indexing),
not "none" as the claim states. -/
theorem peek_negative_cex :
    peek ['a', 'b'] 0 (-1) = .ok (some 'b') ∧ ((0 : Int) + (-1) < 0) := by
  constructor
  · rfl
  · decide

/-- C5 amended: `peek(offset)` never moves the cursor (it is a pure
function of the state) and returns the character at `cursor + offset`,
or none, only when `cursor + offset ≥ 0` (none exactly when the index
is at/after the end); for a negative `cursor + offset`, Python
indexing-from-the-end applies: the character at
`length + cursor + offset` when that is in range, and an uncaught
IndexError when `cursor + offset < -length`. -/
theorem peek_characterization (input : List Char) (cursor : Nat) (off : Int) :
    (0 ≤ (cursor : Int) + off →
      peek input cursor off = .ok (input[((cursor : Int) + off).toNat]?)) ∧
    ((cursor : Int) + off < 0 → -(input.length : Int) ≤ (cursor : Int) + off →
      peek input cursor off =
        .ok (input[((input.length : Int) + ((cursor : Int) + off)).toNat]?)) ∧
    ((cursor : Int) + off < -(input.length : Int) →
      peek input cursor off = .error .indexError) := by
  refine ⟨?_, ?_, ?_⟩
  · intro h0
    by_cases hle : (input.length : Int) ≤ (cursor : Int) + off
    · have hnone : input[((cursor : Int) + off).toNat]? = none := by
        apply List.getElem?_eq_none
        omega
      simp [peek, hle, hnone]
    · have hidx : ((cursor : Int) + off).toNat < input.length := by omega
      have hc := List.getElem?_eq_getElem hidx
      simp only [peek, pyGetItem, if_neg hle]
      rw [if_neg (by omega : ¬ (cursor : Int) + off < 0)]
      rw [if_pos (by constructor <;> omega)]
      rw [hc]
  · intro hneg hge
    have hle : ¬ (input.length : Int) ≤ (cursor : Int) + off := by omega
    have hidx : ((input.length : Int) + ((cursor : Int) + off)).toNat < input.length := by
      omega
    have hc := List.getElem?_eq_getElem hidx
    simp only [peek, pyGetItem, if_neg hle]
    rw [if_pos hneg]
    rw [if_pos (by constructor <;> omega)]
    rw [hc]
  · intro h
    have hle : ¬ (input.length : Int) ≤ (cursor : Int) + off := by omega
    simp only [peek, pyGetItem, if_neg hle]
    rw [if_pos (by omega : (cursor : Int) + off < 0)]
    rw [if_neg (by omega : ¬ (0 ≤ (input.length : Int) + ((cursor : Int) + off) ∧
      (input.length : Int) + ((cursor : Int) + off) < (input.length : Int)))]

/-- Witness for `peek_characterization`: IndexError below `-length`. -/
theorem peek_characterization_witness :
    peek ['a'] 0 (-5) = .error .indexError :=
  (peek_characterization ['a'] 0 (-5)).2.2 (by decide)

/-! ## C2 (corrected) -/

/-- C2 counterexample: parsing `nxll`, the failure is triggered by the
`x` at index 1 (it mismatches the keyword character `u`), but the
reported ParseError position is 2 — the index *after* the offending
character (where the input holds `l`, not `x`). -/
theorem error_position_cex :
    parseJson "nxll".data =
      .error (.parseError "Expected \x27u\x27 but got \x27x\x27" 2) ∧
    "nxll".data[1]? = some 'x' ∧ "nxll".data[2]? ≠ some 'x' := by
  refine ⟨rfl, rfl, ?_⟩
  decide

/-- C2 amended: in the two procedures the claim singles out, the
ParseError position is one *past* the offending character, not the
offending character's own index: a `_expect_keyword` mismatch at the
i-th keyword character (all earlier characters matching) reports
position `p + i + 1` while the offending character sits at offset `i`
from the call position `p`; and every ParseError raised by
`_parse_escape_sequence` reports `p + 1` where the offending character
(or end of input) is at the call position `p`. -/
theorem error_position_after_offender :
    (∀ (kw rest : List Char) (p : Nat) (m : String) (q : Nat),
      expectKeyword kw rest p = .error (.parseError m q) →
      ∃ i c, kw[i]? = some c ∧ rest[i]? ≠ some c ∧
        (∀ j, j < i → rest[j]? = kw[j]?) ∧ q = p + i + 1) ∧
    (∀ (rest : List Char) (p : Nat) (m : String) (q : Nat),
      parseEscape rest p = .error (.parseError m q) → q = p + 1) := by
  constructor
  · intro kw
    induction kw with
    | nil => intro rest p m q h; cases h
    | cons e es ih =>
      intro rest p m q h
      cases rest with
      | nil =>
        simp only [expectKeyword, advance] at h
        rw [if_neg (by simp)] at h
        cases h
        exact ⟨0, e, by simp, by simp, by omega, by omega⟩
      | cons c cs =>
        simp only [expectKeyword, advance] at h
        by_cases hce : c = e
        · subst hce
          rw [if_pos rfl] at h
          obtain ⟨i, c', hkw, hrest, hpre, hq⟩ := ih cs (p + 1) m q h
          refine ⟨i + 1, c', by simpa using hkw, by simpa using hrest, ?_, by omega⟩
          intro j hj
          cases j with
          | zero => simp
          | succ j' => simpa using hpre j' (by omega)
        · rw [if_neg (by simpa using hce)] at h
          cases h
          refine ⟨0, e, by simp, by simpa using hce, by omega, by omega⟩
  · intro rest p m q h
    cases rest with
    | nil => cases h; rfl
    | cons c cs =>
      simp only [parseEscape] at h
      split at h
      · cases h
      · split at h
        · split at h
          · cases h
          · rename_i e' heq
            have := uEscape_error _ _ heq
            subst this
            cases h
        · cases h; rfl

/-- Witness for `error_position_after_offender` on the `nxll` run:
`_expect_keyword("null")` fails with position 2 = 0 + 1 + 1, one past
the offending `x` at index 1. -/
theorem error_position_after_offender_witness :
    ∃ i c, (['n', 'u', 'l', 'l'] : List Char)[i]? = some c ∧
      ("nxll".data)[i]? ≠ some c ∧
      (∀ j, j < i → ("nxll".data)[j]? = (['n', 'u', 'l', 'l'] : List Char)[j]?) ∧
      2 = 0 + i + 1 :=
  error_position_after_offender.1 ['n', 'u', 'l', 'l'] "nxll".data 0
    "Expected \x27u\x27 but got \x27x\x27" 2 rfl

/-! ## C1 (code bug) -/

/-- C1: the code violates the claim — on the malformed unicode escape
in the input `"\uZZZZ"` (non-hex digits inside the four characters
after `\u`), the unguarded `int(hex_chars, 16)` on line 153 raises an
uncaught builtin ValueError, so `parse` does not report a ParseError. -/
theorem malformed_unicode_value_error :
    parseJson "\"\\uZZZZ\"".data = .error .valueError ∧
    ∀ m q, Err.valueError ≠ .parseError m q := by
  refine ⟨rfl, ?_⟩
  intro m q h
  cases h

/-! ## C6 -/

/-- An ASCII digit is not a decimal point, exponent marker, or sign. -/
theorem pyIsDigit_ne (d : Char) (h : pyIsDigit d = true) :
    d ≠ '.' ∧ d ≠ 'e' ∧ d ≠ 'E' := by
  refine ⟨?_, ?_, ?_⟩ <;> rintro rfl <;> revert h <;> decide

/-- C6: in `_parse_number`'s integer part, when the current character is
`0`, exactly one `0` is consumed even when another digit follows
immediately (the result is Integer 0 and the following digit is left
unconsumed); consequently the top-level input `01` parses the single
`0` and then fails with `Unexpected characters after JSON value` at
position 1. -/
theorem leading_zero_single :
    (∀ (rest : List Char) (p : Nat) (d : Char),
      rest.head? = some '0' → rest.tail.head? = some d → pyIsDigit d = true →
      parseNumber rest p = .ok (.int 0, rest.tail, p + 1)) ∧
    parseJson "01".data =
      .error (.parseError "Unexpected characters after JSON value" 1) := by
  constructor
  · intro rest p d h0 hd hdig
    cases rest with
    | nil => cases h0
    | cons a t =>
      simp only [List.head?_cons, Option.some.injEq] at h0
      subst h0
      cases t with
      | nil => cases hd
      | cons b u =>
        simp only [List.tail_cons, List.head?_cons, Option.some.injEq] at hd
        subst hd
        obtain ⟨hne1, hne2, hne3⟩ := pyIsDigit_ne b hdig
        simp [parseNumber, numSign, numIntPart, numFracPart, numExpPart,
          hne1, hne2, hne3, pyIntDec, digitsToNat]
  · rfl

/-- Witness for `leading_zero_single` on the input `01`. -/
theorem leading_zero_single_witness :
    parseNumber "01".data 0 = .ok (.int 0, "01".data.tail, 0 + 1) :=
  leading_zero_single.1 "01".data 0 '1' rfl rfl (by decide)

/-! ## C8 -/

/-- C8: when `parse_value` dispatches on a `]` (the first character
after whitespace), it fails with `Unexpected character: ']'` at that
character's position — which is exactly what happens to the next
`parse_value` call after a trailing comma in an array; in particular
`[1,]` fails with that error at position 3 instead of returning an
array that drops the comma. -/
theorem trailing_comma_rejected :
    (∀ (f : Nat) (rest r' : List Char) (p p' : Nat),
      skipWs rest p = (r', p') → r'.head? = some ']' →
      parseValue (f + 1) rest p =
        .error (.parseError "Unexpected character: \x27]\x27" p')) ∧
    parseJson "[1,]".data =
      .error (.parseError "Unexpected character: \x27]\x27" 3) := by
  constructor
  · intro f rest r' p p' hs hh
    simp only [parseValue]
    rw [hs]
    simp only []
    rw [hh]
    simp [show pyIsDigit ']' = false from by decide]
    decide
  · rfl

/-- Witness for `trailing_comma_rejected` inside the `[1,]` run: the
inner `parse_value` call after the comma (remaining input `]`,
position 3) raises the error. -/
theorem trailing_comma_rejected_witness :
    parseValue (7 + 1) [']'] 3 =
      .error (.parseError "Unexpected character: \x27]\x27" 3) :=
  trailing_comma_rejected.1 7 [']'] [']'] 3 3 rfl rfl

/-! ## C3 -/

/-- `obj[key] = value` keeps the key list unchanged when the key is
already present (first-occurrence position) and appends it otherwise. -/
theorem dictAssign_keys (l : List (List Nat × Value)) (k : List Nat) (v : Value) :
    (dictAssign l k v).map Prod.fst =
      if k ∈ l.map Prod.fst then l.map Prod.fst else l.map Prod.fst ++ [k] := by
  induction l with
  | nil => simp [dictAssign]
  | cons hd t ih =>
    obtain ⟨k', v'⟩ := hd
    by_cases h : k' = k
    · subst h; simp [dictAssign]
    · by_cases hm : k ∈ t.map Prod.fst
      · simp [dictAssign, h, ih, hm, List.mem_cons, Ne.symm h]
      · simp [dictAssign, h, ih, hm, List.mem_cons, Ne.symm h]

/-- After `obj[key] = value`, reading the key gives the new value. -/
theorem dictAssign_lookup_self (l : List (List Nat × Value)) (k : List Nat) (v : Value) :
    lookupVal (dictAssign l k v) k = some v := by
  induction l with
  | nil => simp [dictAssign, lookupVal]
  | cons hd t ih =>
    obtain ⟨k', v'⟩ := hd
    by_cases h : k' = k
    · subst h; simp [dictAssign, lookupVal]
    · simp [dictAssign, lookupVal, h, ih]

/-- `obj[key] = value` does not touch other keys. -/
theorem dictAssign_lookup_other (l : List (List Nat × Value)) (k k' : List Nat)
    (v : Value) (h : k' ≠ k) :
    lookupVal (dictAssign l k v) k' = lookupVal l k' := by
  induction l with
  | nil => simp [dictAssign, lookupVal, Ne.symm h]
  | cons hd t ih =>
    obtain ⟨a, b⟩ := hd
    by_cases ha : a = k
    · subst ha; simp [dictAssign, lookupVal, Ne.symm h]
    · simp [dictAssign, lookupVal, ha, ih]

/-- `obj[key] = value` preserves key uniqueness. -/
theorem dictAssign_nodup (l : List (List Nat × Value)) (k : List Nat) (v : Value)
    (h : (l.map Prod.fst).Nodup) : ((dictAssign l k v).map Prod.fst).Nodup := by
  rw [dictAssign_keys]
  split
  · exact h
  · rename_i hm
    simp [List.nodup_append, h, hm]

/-- C3: duplicate object keys: `obj[key] = value` (line 261) keeps each
key exactly once — the key list after an assignment is unchanged when
the key is present (so a re-assigned key keeps its first-occurrence
position) and gains the key at the end otherwise, uniqueness is
preserved, reading the key yields the value of the most recent (last)
assignment, and other keys are untouched; in particular
`{"a":1,"a":2}` parses to an Object with the single key `a` (code
point 97) mapping to Integer 2. -/
theorem duplicate_keys_last_wins :
    parseJson "\x7b\"a\":1,\"a\":2\x7d".data = .ok (.obj [([97], .int 2)]) ∧
    (∀ (l : List (List Nat × Value)) (k : List Nat) (v : Value),
      (dictAssign l k v).map Prod.fst =
        (if k ∈ l.map Prod.fst then l.map Prod.fst else l.map Prod.fst ++ [k]) ∧
      lookupVal (dictAssign l k v) k = some v ∧
      ((l.map Prod.fst).Nodup → ((dictAssign l k v).map Prod.fst).Nodup)) ∧
    (∀ (l : List (List Nat × Value)) (k k' : List Nat) (v : Value),
      k' ≠ k → lookupVal (dictAssign l k v) k' = lookupVal l k') :=
  ⟨rfl,
   fun l k v =>
     ⟨dictAssign_keys l k v, dictAssign_lookup_self l k v, dictAssign_nodup l k v⟩,
   fun l k k' v h => dictAssign_lookup_other l k k' v h⟩

/-- Witness for `duplicate_keys_last_wins` at concrete entries. -/
theorem duplicate_keys_last_wins_witness :
    ((dictAssign [([97], Value.int 1)] [97] (Value.int 2)).map Prod.fst).Nodup ∧
    lookupVal (dictAssign [([97], Value.int 1)] [97] (Value.int 2)) [98] =
      lookupVal [([97], Value.int 1)] [98] :=
  ⟨(duplicate_keys_last_wins.2.1 [([97], Value.int 1)] [97] (Value.int 2)).2.2
      (by decide),
   duplicate_keys_last_wins.2.2 [([97], Value.int 1)] [97] [98] (Value.int 2)
      (by decide)⟩

/-! ## C7 -/

/-- A hex-digit character has value at most 15, is not whitespace, and
is none of the special characters of Python's `int(·, 16)` syntax. -/
theorem hexDigit_facts (c : Char) (v : Nat) (h : hexDigit? c = some v) :
    v ≤ 15 ∧ pyIsSpace c = false ∧ c ≠ '-' ∧ c ≠ '+' ∧ c ≠ '_' ∧
      c ≠ 'x' ∧ c ≠ 'X' := by
  unfold hexDigit? at h
  split_ifs at h with a b d <;> cases h
  · refine ⟨by omega, ?_, ?_, ?_, ?_, ?_, ?_⟩
    · simp only [pyIsSpace, Bool.or_eq_false_iff, Bool.and_eq_false_iff,
        decide_eq_false_iff_not, decide_eq_true_eq]
      omega
    all_goals rintro rfl; exact absurd a (by decide)
  · refine ⟨by omega, ?_, ?_, ?_, ?_, ?_, ?_⟩
    · simp only [pyIsSpace, Bool.or_eq_false_iff, Bool.and_eq_false_iff,
        decide_eq_false_iff_not, decide_eq_true_eq]
      omega
    all_goals rintro rfl; exact absurd b (by decide)
  · refine ⟨by omega, ?_, ?_, ?_, ?_, ?_, ?_⟩
    · simp only [pyIsSpace, Bool.or_eq_false_iff, Bool.and_eq_false_iff,
        decide_eq_false_iff_not, decide_eq_true_eq]
      omega
    all_goals rintro rfl; exact absurd d (by decide)

/-- Evaluation rule for `uEscape` from its two steps. -/
theorem uEscape_eq (hexChars : List Char) (n : Int) (code : Nat)
    (hx : pyIntHex hexChars = some n) (hc : pyChr n = some code) :
    uEscape hexChars = .ok code := by
  unfold uEscape
  split
  · rename_i m heq
    rw [hx] at heq
    injection heq with heq'
    subst heq'
    split
    · rename_i cd heq2
      rw [hc] at heq2
      injection heq2 with h2
      rw [h2]
    · rename_i heq2
      rw [hc] at heq2
      cases heq2
  · rename_i heq
    rw [hx] at heq
    cases heq

/-- `int(s, 16)` on exactly four hex digits is the base-16 value. -/
theorem pyIntHex_four (h1 h2 h3 h4 : Char) (v1 v2 v3 v4 : Nat)
    (e1 : hexDigit? h1 = some v1) (e2 : hexDigit? h2 = some v2)
    (e3 : hexDigit? h3 = some v3) (e4 : hexDigit? h4 = some v4) :
    pyIntHex [h1, h2, h3, h4] =
      some ((4096 * v1 + 256 * v2 + 16 * v3 + v4 : Nat) : Int) := by
  obtain ⟨b1, s1, m1, pl1, u1, x1, X1⟩ := hexDigit_facts h1 v1 e1
  obtain ⟨b2, s2, m2, pl2, u2, x2, X2⟩ := hexDigit_facts h2 v2 e2
  obtain ⟨b4, s4, m4, pl4, u4, x4, X4⟩ := hexDigit_facts h4 v4 e4
  have hstrip : pyStrip [h1, h2, h3, h4] = [h1, h2, h3, h4] := by
    simp [pyStrip, List.dropWhile, s1, s4]
  have hbody : hexBody [h1, h2, h3, h4] =
      some (16 * (16 * (16 * (16 * 0 + v1) + v2) + v3) + v4) := by
    unfold hexBody
    rw [if_neg (by
      simp only [List.head?_cons, List.tail_cons, Option.some.injEq]
      rintro ⟨-, hx | hX⟩
      · exact x2 hx
      · exact X2 hX)]
    simp only [hexCore, e1, e2, e3, e4]
    rfl
  unfold pyIntHex
  rw [hstrip]
  rw [if_neg (by simp [m1]), if_neg (by simp [pl1]), hbody]
  simp only [Option.map_some', Option.some.injEq, Int.ofNat_eq_coe]
  push_cast
  ring

set_option maxRecDepth 4096 in
/-- C7: string escape decoding after a backslash: `n`→newline(10),
`t`→tab(9), `r`→carriage return(13), `"`→34, `\`→92, `/`→47; `u`
followed by four hexadecimal digits yields the single code point they
encode (no surrogate-pair composition — whatever the four digits, the
result is that one code point); any other character after the
backslash fails with `Invalid escape sequence`; and the concrete
input `"hello\nworld"` parses to the two-line string
`hello<newline>world`. -/
theorem escape_decoding :
    (∀ (rest : List Char) (p : Nat),
      parseEscape ('n' :: rest) p = .ok (10, rest, p + 1) ∧
      parseEscape ('t' :: rest) p = .ok (9, rest, p + 1) ∧
      parseEscape ('r' :: rest) p = .ok (13, rest, p + 1) ∧
      parseEscape ('"' :: rest) p = .ok (34, rest, p + 1) ∧
      parseEscape ('\\' :: rest) p = .ok (92, rest, p + 1) ∧
      parseEscape ('/' :: rest) p = .ok (47, rest, p + 1)) ∧
    (∀ (rest : List Char) (p : Nat) (h1 h2 h3 h4 : Char) (v1 v2 v3 v4 : Nat),
      hexDigit? h1 = some v1 → hexDigit? h2 = some v2 →
      hexDigit? h3 = some v3 → hexDigit? h4 = some v4 →
      parseEscape ('u' :: h1 :: h2 :: h3 :: h4 :: rest) p =
        .ok (4096 * v1 + 256 * v2 + 16 * v3 + v4, rest, p + 5)) ∧
    (∀ (rest : List Char) (p : Nat) (c : Char),
      escapeMap c = none → c ≠ 'u' →
      parseEscape (c :: rest) p =
        .error (.parseError ("Invalid escape sequence: \\" ++ String.singleton c)
          (p + 1))) ∧
    parseJson "\"hello\\nworld\"".data = .ok (.str ("hello\nworld".data.map Char.toNat)) := by
  refine ⟨fun rest p => ⟨rfl, rfl, rfl, rfl, rfl, rfl⟩, ?_, ?_, rfl⟩
  · intro rest p h1 h2 h3 h4 v1 v2 v3 v4 e1 e2 e3 e4
    obtain ⟨bb1, -⟩ := hexDigit_facts h1 v1 e1
    obtain ⟨bb2, -⟩ := hexDigit_facts h2 v2 e2
    obtain ⟨bb3, -⟩ := hexDigit_facts h3 v3 e3
    obtain ⟨bb4, -⟩ := hexDigit_facts h4 v4 e4
    have htake : (h1 :: h2 :: h3 :: h4 :: rest).take 4 = [h1, h2, h3, h4] := rfl
    have hdrop : (h1 :: h2 :: h3 :: h4 :: rest).drop 4 = rest := rfl
    have hNlt : 4096 * v1 + 256 * v2 + 16 * v3 + v4 < 1114112 := by omega
    have hchr : pyChr ((4096 * v1 + 256 * v2 + 16 * v3 + v4 : Nat) : Int) =
        some (4096 * v1 + 256 * v2 + 16 * v3 + v4) := by
      unfold pyChr
      rw [if_pos ⟨Int.natCast_nonneg _, by exact_mod_cast hNlt⟩]
      simp only [Option.some.injEq]
      omega
    have hu : uEscape [h1, h2, h3, h4] =
        .ok (4096 * v1 + 256 * v2 + 16 * v3 + v4) :=
      uEscape_eq [h1, h2, h3, h4] _ _
        (pyIntHex_four h1 h2 h3 h4 v1 v2 v3 v4 e1 e2 e3 e4) hchr
    have hstep : parseEscape ('u' :: h1 :: h2 :: h3 :: h4 :: rest) p =
        match uEscape [h1, h2, h3, h4] with
        | .ok code => .ok (code, rest, p + 5)
        | .error e => .error e := rfl
    rw [hstep, hu]
  · intro rest p c hmap hu
    simp only [parseEscape, hmap, if_neg hu]

/-- Witness for `escape_decoding`: the `A` escape yields code
point 65 and an unknown escape character fails. -/
theorem escape_decoding_witness :
    parseEscape ('u' :: '0' :: '0' :: '4' :: '1' :: []) 0 =
      .ok (4096 * 0 + 256 * 0 + 16 * 4 + 1, [], 0 + 5) ∧
    parseEscape ('x' :: []) 7 =
      .error (.parseError ("Invalid escape sequence: \\" ++ String.singleton 'x')
        (7 + 1)) :=
  ⟨escape_decoding.2.1 [] 0 '0' '0' '4' '1' 0 0 4 1
      (by decide) (by decide) (by decide) (by decide),
   escape_decoding.2.2.1 [] 7 'x' (by decide) (by decide)⟩

/-! ## C4 -/

/-- `digitRun` splits its input into a leading run of digits and the
remainder. -/
theorem digitRun_append (s ds r : List Char) (h : digitRun s = (ds, r)) :
    s = ds ++ r ∧ ∀ c ∈ ds, pyIsDigit c = true := by
  induction s generalizing ds r with
  | nil =>
    cases h
    simp
  | cons c cs ih =>
    unfold digitRun at h
    by_cases hd : pyIsDigit c
    · rw [if_pos hd] at h
      obtain ⟨ds', r', herun⟩ : ∃ a b, digitRun cs = (a, b) := ⟨_, _, rfl⟩
      rw [herun] at h
      cases h
      obtain ⟨h1, h2⟩ := ih _ _ herun
      refine ⟨by rw [List.cons_append, ← h1], ?_⟩
      intro x hx
      rcases List.mem_cons.mp hx with rfl | hx'
      · exact hd
      · exact h2 x hx'
    · rw [if_neg hd] at h
      cases h
      simp

/-- The sign step consumes an optional leading `-`. -/
theorem numSign_spec (rest s r : List Char) (p q : Nat)
    (h : numSign rest p = (s, r, q)) :
    rest = s ++ r ∧ q = p + s.length ∧ ∀ c ∈ s, c = '-' := by
  unfold numSign at h
  by_cases hm : rest.head? = some '-'
  · rw [if_pos hm] at h
    cases h
    cases rest with
    | nil => cases hm
    | cons a t =>
      simp only [List.head?_cons, Option.some.injEq] at hm
      subst hm
      simp
  · rw [if_neg hm] at h
    cases h
    simp

/-- The integer-part step consumes a nonempty run of digits (a single
`0` in the zero branch). -/
theorem numIntPart_spec (rest ds r : List Char) (p q : Nat)
    (h : numIntPart rest p = .ok (ds, r, q)) :
    rest = ds ++ r ∧ q = p + ds.length ∧ ds ≠ [] ∧ ∀ c ∈ ds, pyIsDigit c = true := by
  unfold numIntPart at h
  by_cases h0 : rest.head? = some '0'
  · rw [if_pos h0] at h
    cases h
    cases rest with
    | nil => cases h0
    | cons a t =>
      simp only [List.head?_cons, Option.some.injEq] at h0
      subst h0
      refine ⟨by simp, by simp, by simp, ?_⟩
      intro c hc
      simp only [List.mem_singleton] at hc
      subst hc
      decide
  · rw [if_neg h0] at h
    cases rest with
    | nil => cases h
    | cons c cs =>
      simp only [] at h
      by_cases hd : pyIsDigit c
      · rw [if_pos hd] at h
        obtain ⟨ds', r', herun⟩ : ∃ a b, digitRun (c :: cs) = (a, b) := ⟨_, _, rfl⟩
        have hne : ds' ≠ [] := by
          unfold digitRun at herun
          rw [if_pos hd] at herun
          obtain ⟨a, b, hab⟩ : ∃ a b, digitRun cs = (a, b) := ⟨_, _, rfl⟩
          rw [hab] at herun
          cases herun
          simp
        rw [herun] at h
        cases h
        obtain ⟨h1, h2⟩ := digitRun_append _ _ _ herun
        exact ⟨h1, rfl, hne, h2⟩
      · rw [if_neg hd] at h
        cases h

/-- The fraction step: either nothing, or `.` followed by a digit run,
with the float flag recording which. -/
theorem numFracPart_spec (rest fs r : List Char) (b : Bool) (p q : Nat)
    (h : numFracPart rest p = .ok ((fs, b), r, q)) :
    rest = fs ++ r ∧ q = p + fs.length ∧
      (b = true → '.' ∈ fs) ∧ (b = false → fs = []) := by
  unfold numFracPart at h
  by_cases hdot : rest.head? = some '.'
  · rw [if_pos hdot] at h
    cases rest with
    | nil => cases hdot
    | cons a t =>
      simp only [List.head?_cons, Option.some.injEq] at hdot
      subst hdot
      simp only [List.tail_cons] at h
      cases t with
      | nil => cases h
      | cons c cs =>
        simp only [] at h
        by_cases hd : pyIsDigit c
        · rw [if_pos hd] at h
          obtain ⟨ds', r', herun⟩ : ∃ a b, digitRun (c :: cs) = (a, b) := ⟨_, _, rfl⟩
          rw [herun] at h
          cases h
          obtain ⟨h1, h2⟩ := digitRun_append _ _ _ herun
          refine ⟨by rw [List.cons_append, ← h1], ?_, by simp, by simp⟩
          simp
          omega
        · rw [if_neg hd] at h
          cases h
  · rw [if_neg hdot] at h
    cases h
    simp

/-- The exponent step: either nothing, or `e`/`E`, an optional sign and
a digit run, with the float flag recording which. -/
theorem numExpPart_spec (rest es r : List Char) (b : Bool) (p q : Nat)
    (h : numExpPart rest p = .ok ((es, b), r, q)) :
    rest = es ++ r ∧ q = p + es.length ∧
      (b = true → 'e' ∈ es ∨ 'E' ∈ es) ∧ (b = false → es = []) := by
  unfold numExpPart at h
  by_cases hm : rest.head? = some 'e' ∨ rest.head? = some 'E'
  · rw [if_pos hm] at h
    cases rest with
    | nil => cases h
    | cons m rest1 =>
      simp only [] at h
      have hm' : m = 'e' ∨ m = 'E' := by
        simpa using hm
      by_cases hs : rest1.head? = some '+' ∨ rest1.head? = some '-'
      · rw [if_pos hs] at h
        cases rest1 with
        | nil => simp at hs
        | cons s1 rest1' =>
          simp only [List.take_succ_cons, List.take_zero, List.drop_succ_cons,
            List.drop_zero] at h
          cases rest1' with
          | nil => cases h
          | cons c cs =>
            simp only [] at h
            by_cases hd : pyIsDigit c
            · rw [if_pos hd] at h
              obtain ⟨ds', r', herun⟩ : ∃ a b, digitRun (c :: cs) = (a, b) := ⟨_, _, rfl⟩
              rw [herun] at h
              cases h
              obtain ⟨h1, h2⟩ := digitRun_append _ _ _ herun
              refine ⟨by simp [← h1], ?_, ?_, by simp⟩
              · simp
                omega
              · intro
                rcases hm' with rfl | rfl
                · left; simp
                · right; simp
            · rw [if_neg hd] at h
              cases h
      · rw [if_neg hs] at h
        simp only [] at h
        cases rest1 with
        | nil => cases h
        | cons c cs =>
          simp only [] at h
          by_cases hd : pyIsDigit c
          · rw [if_pos hd] at h
            obtain ⟨ds', r', herun⟩ : ∃ a b, digitRun (c :: cs) = (a, b) := ⟨_, _, rfl⟩
            rw [herun] at h
            cases h
            obtain ⟨h1, h2⟩ := digitRun_append _ _ _ herun
            refine ⟨by simp [← h1], ?_, ?_, by simp⟩
            · simp
              omega
            · intro
              rcases hm' with rfl | rfl
              · left; simp
              · right; simp
          · rw [if_neg hd] at h
            cases h
  · rw [if_neg hm] at h
    cases h
    simp

/-- C4: for every numeric literal accepted by `_parse_number` the
classification is purely lexical: the result is Integer exactly when
the consumed literal (the `num_str` between the entry position and the
final position) contains neither `.` nor `e`/`E`, and Float (carrying
that literal) exactly when it does — never depending on magnitude; and
an Integer result equals `int(num_str)`, the exact signed decimal
value of the consumed characters. -/
theorem number_classification :
    ∀ (rest : List Char) (p : Nat) (v : Value) (rest' : List Char) (p' : Nat),
      parseNumber rest p = .ok (v, rest', p') →
      ∃ lit, rest = lit ++ rest' ∧ p' = p + lit.length ∧
        ((∃ n, v = Value.int n) ↔ ¬('.' ∈ lit ∨ 'e' ∈ lit ∨ 'E' ∈ lit)) ∧
        (∀ l, v = Value.float l → l = lit) ∧
        (∀ n, v = Value.int n → n = pyIntDec lit) := by
  intro rest p v rest' p' h
  unfold parseNumber at h
  obtain ⟨s, r1, p1, hsgn⟩ : ∃ a b c, numSign rest p = (a, b, c) := ⟨_, _, _, rfl⟩
  simp only [hsgn] at h
  split at h
  · cases h
  · rename_i intStr rest2 p2 hint
    split at h
    · cases h
    · rename_i fracStr isF1 rest3 p3 hfrac
      split at h
      · cases h
      · rename_i expStr isF2 rest6 p6 hexp
        obtain ⟨hs1, hs2, hs3⟩ := numSign_spec rest s r1 p p1 hsgn
        obtain ⟨hi1, hi2, hi3, hi4⟩ := numIntPart_spec r1 intStr rest2 p1 p2 hint
        obtain ⟨hf1, hf2, hf3, hf4⟩ := numFracPart_spec rest2 fracStr rest3 isF1 p2 p3 hfrac
        obtain ⟨he1, he2, he3, he4⟩ := numExpPart_spec rest3 expStr rest6 isF2 p3 p6 hexp
        by_cases hF : (isF1 || isF2) = true
        · rw [if_pos hF] at h
          injection h with h1
          cases h1
          refine ⟨s ++ intStr ++ fracStr ++ expStr, ?_, ?_, ?_, ?_, ?_⟩
          · rw [hs1, hi1, hf1, he1]
            simp [List.append_assoc]
          · simp only [List.length_append]
            omega
          · constructor
            · rintro ⟨n, hn⟩
              cases hn
            · intro hcon
              exfalso
              apply hcon
              rcases (Bool.or_eq_true _ _).mp hF with h1 | h2
              · left
                have := hf3 h1
                simp [List.mem_append]
                tauto
              · have := he3 h2
                rcases this with he | hE
                · right; left
                  simp [List.mem_append]
                  tauto
                · right; right
                  simp [List.mem_append]
                  tauto
          · intro l hl
            injection hl with hl'
            exact hl'.symm
          · intro n hn
            cases hn
        · rw [if_neg hF] at h
          injection h with h1
          cases h1
          have hf0 : isF1 = false := by revert hF; cases isF1 <;> simp
          have he0 : isF2 = false := by revert hF; cases isF2 <;> simp
          refine ⟨s ++ intStr ++ fracStr ++ expStr, ?_, ?_, ?_, ?_, ?_⟩
          · rw [hs1, hi1, hf1, he1]
            simp [List.append_assoc]
          · simp only [List.length_append]
            omega
          · have hchars : ∀ x, x ∈ s ++ intStr ++ fracStr ++ expStr →
                x = '-' ∨ pyIsDigit x = true := by
              intro x hx
              rw [hf4 hf0, he4 he0] at hx
              simp only [List.append_nil, List.mem_append] at hx
              rcases hx with hx | hx
              · exact .inl (hs3 x hx)
              · exact .inr (hi4 x hx)
            constructor
            · intro _ hmem
              rcases hmem with hmem | hmem | hmem <;>
                rcases hchars _ hmem with h' | h' <;> exact absurd h' (by decide)
            · intro _
              exact ⟨_, rfl⟩
          · intro l hl
            cases hl
          · intro n hn
            injection hn with hn'
            exact hn'.symm

/-- Witness for `number_classification` on the literal `42`. -/
theorem number_classification_witness :
    ∃ lit, "42".data = lit ++ [] ∧ 2 = 0 + lit.length ∧
      ((∃ n, Value.int 42 = Value.int n) ↔ ¬('.' ∈ lit ∨ 'e' ∈ lit ∨ 'E' ∈ lit)) ∧
      (∀ l, Value.int 42 = Value.float l → l = lit) ∧
      (∀ n, Value.int 42 = Value.int n → n = pyIntDec lit) :=
  number_classification "42".data 0 (Value.int 42) [] 2 rfl

/-! ## C9: helper lemmas about whitespace skipping and suffix extension -/

/-- Whitespace characters are not digits, and differ from the
structural characters the parser dispatches on. -/
theorem pyIsSpace_facts (c : Char) (h : pyIsSpace c = true) :
    pyIsDigit c = false ∧ c ≠ '-' ∧ c ≠ '.' ∧ c ≠ 'e' ∧ c ≠ 'E' ∧
      c ≠ '+' ∧ c ≠ '0' := by
  simp only [pyIsSpace, Bool.or_eq_true, Bool.and_eq_true, decide_eq_true_eq] at h
  refine ⟨?_, ?_, ?_, ?_, ?_, ?_, ?_⟩
  · simp only [pyIsDigit, Bool.and_eq_false_iff, decide_eq_false_iff_not]
    omega
  all_goals (rintro rfl; revert h; decide)

/-- `skip_whitespace` never lengthens the input and never moves the
cursor backwards. -/
theorem skipWs_le (s : List Char) (p : Nat) :
    (skipWs s p).1.length ≤ s.length ∧ p ≤ (skipWs s p).2 := by
  induction s generalizing p with
  | nil => simp [skipWs]
  | cons c cs ih =>
    by_cases hc : pyIsSpace c
    · have := ih (p + 1)
      simp only [skipWs, if_pos hc]
      constructor
      · exact le_trans this.1 (by simp)
      · omega
    · simp [skipWs, if_neg hc]

/-- When `skip_whitespace` stops at a character, appending a suffix and
changing the start position shifts the result accordingly. -/
theorem skipWs_stop_append (s : List Char) (p : Nat) (c : Char) (r : List Char)
    (q : Nat) (h : skipWs s p = (c :: r, q)) :
    p ≤ q ∧ ∀ (t : List Char) (p₀ : Nat),
      skipWs (s ++ t) p₀ = (c :: (r ++ t), p₀ + (q - p)) := by
  induction s generalizing p with
  | nil =>
    simp only [skipWs] at h
    cases h
  | cons a as ih =>
    by_cases ha : pyIsSpace a
    · simp only [skipWs, if_pos ha] at h
      obtain ⟨hle, hext⟩ := ih (p + 1) h
      refine ⟨by omega, ?_⟩
      intro t p₀
      have hx := hext t (p₀ + 1)
      have hstep : skipWs ((a :: as) ++ t) p₀ = skipWs (as ++ t) (p₀ + 1) := by
        simp [skipWs, ha]
      rw [hstep, hx]
      simp only [Prod.mk.injEq, true_and]
      omega
    · simp only [skipWs, if_neg ha] at h
      cases h
      refine ⟨le_refl _, ?_⟩
      intro t p₀
      simp [skipWs, if_neg ha]

/-- When `skip_whitespace` consumes the whole input, the input was all
whitespace and the cursor advanced over all of it. -/
theorem skipWs_nil (s : List Char) (p : Nat) (q : Nat)
    (h : skipWs s p = ([], q)) :
    (∀ c ∈ s, pyIsSpace c = true) ∧ q = p + s.length := by
  induction s generalizing p with
  | nil =>
    simp only [skipWs] at h
    cases h
    simp
  | cons a as ih =>
    by_cases ha : pyIsSpace a
    · simp only [skipWs, if_pos ha] at h
      obtain ⟨h1, h2⟩ := ih (p + 1) h
      constructor
      · intro c hc
        rcases List.mem_cons.mp hc with rfl | hc'
        · exact ha
        · exact h1 c hc'
      · simp
        omega
    · simp only [skipWs, if_neg ha] at h
      cases h

/-- `skip_whitespace` on an all-whitespace input consumes everything. -/
theorem skipWs_allWs (s : List Char) (h : ∀ c ∈ s, pyIsSpace c = true) (p : Nat) :
    skipWs s p = ([], p + s.length) := by
  induction s generalizing p with
  | nil => simp [skipWs]
  | cons a as ih =>
    have ha : pyIsSpace a = true := h a (by simp)
    simp only [skipWs, if_pos ha]
    rw [ih (fun c hc => h c (by simp [hc])) (p + 1)]
    simp
    omega

/-- An all-whitespace prefix is skipped entirely. -/
theorem skipWs_ws_prefix (w : List Char) (h : ∀ c ∈ w, pyIsSpace c = true)
    (u : List Char) (p : Nat) :
    skipWs (w ++ u) p = skipWs u (p + w.length) := by
  induction w generalizing p with
  | nil => simp
  | cons a as ih =>
    have ha : pyIsSpace a = true := h a (by simp)
    have hstep : skipWs ((a :: as) ++ u) p = skipWs (as ++ u) (p + 1) := by
      simp [skipWs, ha]
    rw [hstep, ih (fun c hc => h c (by simp [hc])) (p + 1)]
    have : p + 1 + as.length = p + (a :: as).length := by
      simp
      omega
    rw [this]

/-- `expect` succeeds only on the expected head character. -/
theorem expect_ok (ch : Char) (s r : List Char) (p q : Nat) (u : Unit)
    (h : expect ch s p = .ok (u, r, q)) :
    s.head? = some ch ∧ r = s.tail ∧ q = p + 1 := by
  unfold expect at h
  by_cases hc : s.head? = some ch
  · rw [if_pos hc] at h
    cases h
    exact ⟨hc, rfl, rfl⟩
  · rw [if_neg hc] at h
    cases h

/-- A successful `_expect_keyword` run consumes exactly the keyword and
is stable under appending input and shifting the position. -/
theorem expectKeyword_okExt (kw : List Char) :
    ∀ (s r : List Char) (p q : Nat) (u : Unit),
      expectKeyword kw s p = .ok (u, r, q) →
      p ≤ q ∧ r.length ≤ s.length ∧
        ∀ (t : List Char) (p₀ : Nat),
          expectKeyword kw (s ++ t) p₀ = .ok (u, r ++ t, p₀ + (q - p)) := by
  induction kw with
  | nil =>
    intro s r p q u h
    cases h
    exact ⟨le_refl _, le_refl _, fun t p₀ => by simp [expectKeyword]⟩
  | cons e es ih =>
    intro s r p q u h
    cases s with
    | nil =>
      simp only [expectKeyword, advance] at h
      rw [if_neg (by simp)] at h
      cases h
    | cons a as =>
      simp only [expectKeyword, advance] at h
      by_cases hae : a = e
      · subst hae
        rw [if_pos rfl] at h
        obtain ⟨h1, h2, h3⟩ := ih as r (p + 1) q u h
        refine ⟨by omega, by simp; omega, ?_⟩
        intro t p₀
        rw [show expectKeyword (a :: es) ((a :: as) ++ t) p₀ =
          expectKeyword es (as ++ t) (p₀ + 1) from by simp [expectKeyword, advance]]
        rw [h3 t (p₀ + 1)]
        have : p₀ + 1 + (q - (p + 1)) = p₀ + (q - p) := by omega
        rw [this]
      · rw [if_neg (by simpa using hae)] at h
        cases h

/-- `parse_value` on empty remaining input never succeeds. -/
theorem parseValue_nil (f : Nat) (p : Nat) (v : Value) (r : List Char) (q : Nat) :
    parseValue f [] p ≠ .ok (v, r, q) := by
  cases f with
  | zero => intro h; cases h
  | succ f =>
    intro h
    simp [parseValue, skipWs] at h

/-- The array loop on empty remaining input never succeeds. -/
theorem arrayItems_nil (f : Nat) (acc : List Value) (p : Nat) (v : Value)
    (r : List Char) (q : Nat) : arrayItems f acc [] p ≠ .ok (v, r, q) := by
  cases f with
  | zero => intro h; cases h
  | succ f =>
    intro h
    simp only [arrayItems] at h
    split at h
    · cases h
    · rename_i v1 r1 p1 hpv
      exact parseValue_nil f p v1 r1 p1 hpv

/-- The object loop on empty remaining input never succeeds. -/
theorem objectItems_nil (f : Nat) (acc : List (List Nat × Value)) (p : Nat)
    (v : Value) (r : List Char) (q : Nat) :
    objectItems f acc [] p ≠ .ok (v, r, q) := by
  cases f with
  | zero => intro h; cases h
  | succ f =>
    intro h
    simp [objectItems, skipWs] at h

/-- The string loop on empty remaining input never succeeds. -/
theorem parseStringBody_nil (f : Nat) (p : Nat) (acc cs : List Nat)
    (r : List Char) (q : Nat) : parseStringBody f [] p acc ≠ .ok (cs, r, q) := by
  cases f with
  | zero => intro h; cases h
  | succ f =>
    intro h
    simp [parseStringBody] at h

/-- A successful `_parse_escape_sequence` run either ran off the end of
the input (leaving nothing) or is stable under appending input and
shifting the position. -/
theorem parseEscape_okExt (s : List Char) (p : Nat) (n : Nat) (r : List Char)
    (q : Nat) (h : parseEscape s p = .ok (n, r, q)) :
    p ≤ q ∧ r.length ≤ s.length ∧
      (r = [] ∨ ∀ (t : List Char) (p₀ : Nat),
        parseEscape (s ++ t) p₀ = .ok (n, r ++ t, p₀ + (q - p))) := by
  cases s with
  | nil => cases h
  | cons c cs =>
    unfold parseEscape at h
    cases hm : escapeMap c with
    | some code =>
      simp only [hm] at h
      cases h
      refine ⟨by omega, by simp, .inr ?_⟩
      intro t p₀
      have h1 : p + 1 - p = 1 := by omega
      simp [parseEscape, hm, h1]
    | none =>
      simp only [hm] at h
      by_cases hu : c = 'u'
      · subst hu
        rw [if_pos rfl] at h
        cases hq : uEscape (cs.take 4) with
        | error e =>
          simp only [hq] at h
          cases h
        | ok code =>
          simp only [hq] at h
          cases h
          refine ⟨by omega, by simp; omega, ?_⟩
          by_cases hlen : 4 ≤ cs.length
          · refine .inr ?_
            intro t p₀
            have htake : (cs ++ t).take 4 = cs.take 4 :=
              List.take_append_of_le_length hlen
            have hdrop : (cs ++ t).drop 4 = cs.drop 4 ++ t :=
              List.drop_append_of_le_length hlen
            have h5 : p + 5 - p = 5 := by omega
            simp [parseEscape, hm, htake, hdrop, hq, h5]
          · exact .inl (List.drop_eq_nil_of_le (by omega))
      · rw [if_neg hu] at h
        cases h

/-- A successful string-loop run is stable under more fuel, appended
input, and shifted positions. -/
theorem parseStringBody_okExt :
    ∀ (f : Nat) (s : List Char) (p : Nat) (acc cs : List Nat) (r : List Char) (q : Nat),
      parseStringBody f s p acc = .ok (cs, r, q) →
      p ≤ q ∧ r.length ≤ s.length ∧
        ∀ (g : Nat), f ≤ g → ∀ (t : List Char) (p₀ : Nat),
          parseStringBody g (s ++ t) p₀ acc = .ok (cs, r ++ t, p₀ + (q - p)) := by
  intro f
  induction f with
  | zero => intro s p acc cs r q h; cases h
  | succ f ih =>
    intro s p acc cs r q h
    cases s with
    | nil => exact absurd h (parseStringBody_nil _ _ _ _ _ _)
    | cons c cs1 =>
      simp only [parseStringBody] at h
      by_cases hqu : c = '"'
      · subst hqu
        rw [if_pos rfl] at h
        cases h
        refine ⟨by omega, by simp, ?_⟩
        intro g hg t p₀
        cases g with
        | zero => omega
        | succ g =>
          have h1 : p + 1 - p = 1 := by omega
          simp [parseStringBody, h1]
      · rw [if_neg hqu] at h
        by_cases hb : c = '\\'
        · subst hb
          rw [if_pos rfl] at h
          cases hesc : parseEscape cs1 (p + 1) with
          | error e =>
            simp only [hesc] at h
            cases h
          | ok trip =>
            obtain ⟨n, r1, p1⟩ := trip
            simp only [hesc] at h
            obtain ⟨hp1, hl1, hext1⟩ := ih r1 p1 (acc ++ [n]) cs r q h
            obtain ⟨hpe, hle, hor⟩ := parseEscape_okExt cs1 (p + 1) n r1 p1 hesc
            rcases hor with rfl | hext0
            · exact absurd h (parseStringBody_nil _ _ _ _ _ _)
            · refine ⟨by omega, ?_, ?_⟩
              · calc r.length ≤ r1.length := hl1
                  _ ≤ cs1.length := hle
                  _ ≤ ('\\' :: cs1).length := by simp
              · intro g hg t p₀
                cases g with
                | zero => omega
                | succ g =>
                  rw [show parseStringBody (g + 1) (('\\' :: cs1) ++ t) p₀ acc =
                    (match parseEscape (cs1 ++ t) (p₀ + 1) with
                     | .ok (n', r', p') => parseStringBody g r' p' (acc ++ [n'])
                     | .error e => .error e) from by simp [parseStringBody]]
                  rw [hext0 t (p₀ + 1)]
                  show parseStringBody g (r1 ++ t) (p₀ + 1 + (p1 - (p + 1)))
                    (acc ++ [n]) = _
                  rw [hext1 g (by omega) t (p₀ + 1 + (p1 - (p + 1)))]
                  have : p₀ + 1 + (p1 - (p + 1)) + (q - p1) = p₀ + (q - p) := by
                    omega
                  rw [this]
        · rw [if_neg hb] at h
          obtain ⟨hp1, hl1, hext1⟩ := ih cs1 (p + 1) (acc ++ [c.toNat]) cs r q h
          refine ⟨by omega, ?_, ?_⟩
          · calc r.length ≤ cs1.length := hl1
              _ ≤ (c :: cs1).length := by simp
          · intro g hg t p₀
            cases g with
            | zero => omega
            | succ g =>
              rw [show parseStringBody (g + 1) ((c :: cs1) ++ t) p₀ acc =
                parseStringBody g (cs1 ++ t) (p₀ + 1) (acc ++ [c.toNat]) from by
                  simp [parseStringBody, hqu, hb]]
              rw [hext1 g (by omega) t (p₀ + 1)]
              have : p₀ + 1 + (q - (p + 1)) = p₀ + (q - p) := by omega
              rw [this]

/-- A successful `_parse_string` run is stable under appended input and
shifted positions. -/
theorem parseString_okExt (s : List Char) (p : Nat) (cs : List Nat)
    (r : List Char) (q : Nat) (h : parseString s p = .ok (cs, r, q)) :
    p ≤ q ∧ r.length ≤ s.length ∧
      ∀ (t : List Char) (p₀ : Nat),
        parseString (s ++ t) p₀ = .ok (cs, r ++ t, p₀ + (q - p)) := by
  cases s with
  | nil => exact absurd h (by simp [parseString, advance, parseStringBody])
  | cons c cs1 =>
    simp only [parseString, advance] at h
    obtain ⟨hp1, hl1, hext1⟩ := parseStringBody_okExt (cs1.length + 1) cs1 (p + 1)
      [] cs r q h
    refine ⟨by omega, ?_, ?_⟩
    · calc r.length ≤ cs1.length := hl1
        _ ≤ (c :: cs1).length := by simp
    · intro t p₀
      simp only [List.cons_append, parseString, advance]
      rw [hext1 ((cs1 ++ t).length + 1) (by simp) t (p₀ + 1)]
      have : p₀ + 1 + (q - (p + 1)) = p₀ + (q - p) := by omega
      rw [this]

/-- A digit run is unchanged by appending whitespace-only input. -/
theorem digitRun_ws_append (s ds r t : List Char)
    (h : digitRun s = (ds, r)) (ht : ∀ c ∈ t, pyIsSpace c = true) :
    digitRun (s ++ t) = (ds, r ++ t) := by
  induction s generalizing ds r with
  | nil =>
    cases h
    cases t with
    | nil => simp [digitRun]
    | cons a as =>
      have := (pyIsSpace_facts a (ht a (by simp))).1
      simp [digitRun, this]
  | cons c cs ih =>
    unfold digitRun at h
    by_cases hd : pyIsDigit c
    · rw [if_pos hd] at h
      obtain ⟨a, b, hab⟩ : ∃ a b, digitRun cs = (a, b) := ⟨_, _, rfl⟩
      rw [hab] at h
      cases h
      have := ih _ _ hab
      simp [digitRun, hd, this]
    · rw [if_neg hd] at h
      cases h
      simp [digitRun, hd]

/-- The sign step is stable under appending whitespace-only input. -/
theorem numSign_okExt (s sg r : List Char) (p q : Nat) (t : List Char)
    (h : numSign s p = (sg, r, q)) (ht : ∀ c ∈ t, pyIsSpace c = true) :
    p ≤ q ∧ r.length ≤ s.length ∧
      ∀ p₀, numSign (s ++ t) p₀ = (sg, r ++ t, p₀ + (q - p)) := by
  unfold numSign at h
  by_cases hm : s.head? = some '-'
  · rw [if_pos hm] at h
    cases h
    cases s with
    | nil => cases hm
    | cons a as =>
      simp only [List.head?_cons, Option.some.injEq] at hm
      subst hm
      refine ⟨by omega, by simp, ?_⟩
      intro p₀
      have h1 : p + 1 - p = 1 := by omega
      simp [numSign, h1]
  · rw [if_neg hm] at h
    cases h
    refine ⟨le_refl _, le_refl _, ?_⟩
    intro p₀
    have hm' : ¬ (s ++ t).head? = some '-' := by
      cases s with
      | nil =>
        simp only [List.nil_append]
        cases t with
        | nil => simp
        | cons a as =>
          have := (pyIsSpace_facts a (ht a (by simp))).2.1
          simp [this]
      | cons a as => simpa using hm
    unfold numSign
    rw [if_neg hm']
    simp

/-- The integer-part step is stable under appending whitespace-only
input. -/
theorem numIntPart_okExt (s ds r : List Char) (p q : Nat) (t : List Char)
    (h : numIntPart s p = .ok (ds, r, q)) (ht : ∀ c ∈ t, pyIsSpace c = true) :
    p ≤ q ∧ r.length ≤ s.length ∧
      ∀ p₀, numIntPart (s ++ t) p₀ = .ok (ds, r ++ t, p₀ + (q - p)) := by
  unfold numIntPart at h
  by_cases h0 : s.head? = some '0'
  · rw [if_pos h0] at h
    cases h
    cases s with
    | nil => cases h0
    | cons a as =>
      simp only [List.head?_cons, Option.some.injEq] at h0
      subst h0
      refine ⟨by omega, by simp, ?_⟩
      intro p₀
      have h1 : p + 1 - p = 1 := by omega
      simp [numIntPart, h1]
  · rw [if_neg h0] at h
    cases s with
    | nil => cases h
    | cons c cs =>
      simp only [] at h
      by_cases hd : pyIsDigit c
      · rw [if_pos hd] at h
        obtain ⟨a, b, hab⟩ : ∃ a b, digitRun (c :: cs) = (a, b) := ⟨_, _, rfl⟩
        rw [hab] at h
        cases h
        obtain ⟨happ, -⟩ := digitRun_append _ _ _ hab
        have hlen2 : cs.length + 1 = a.length + b.length := by
          have := congrArg List.length happ
          simpa using this
        refine ⟨by omega, by simp; omega, ?_⟩
        intro p₀
        have hc0 : ¬ c = '0' := by simpa using h0
        have hrun := digitRun_ws_append (c :: cs) a b t hab ht
        simp only [List.cons_append] at hrun
        have hlen : p + a.length - p = a.length := by omega
        simp [numIntPart, hd, hc0, hrun, hlen]
      · rw [if_neg hd] at h
        cases h

/-- The fraction step is stable under appending whitespace-only input. -/
theorem numFracPart_okExt (s fs r : List Char) (b : Bool) (p q : Nat) (t : List Char)
    (h : numFracPart s p = .ok ((fs, b), r, q)) (ht : ∀ c ∈ t, pyIsSpace c = true) :
    p ≤ q ∧ r.length ≤ s.length ∧
      ∀ p₀, numFracPart (s ++ t) p₀ = .ok ((fs, b), r ++ t, p₀ + (q - p)) := by
  unfold numFracPart at h
  by_cases hdot : s.head? = some '.'
  · rw [if_pos hdot] at h
    cases s with
    | nil => cases hdot
    | cons a as =>
      simp only [List.head?_cons, Option.some.injEq] at hdot
      subst hdot
      simp only [List.tail_cons] at h
      cases as with
      | nil => cases h
      | cons c cs =>
        simp only [] at h
        by_cases hd : pyIsDigit c
        · rw [if_pos hd] at h
          obtain ⟨a2, b2, hab⟩ : ∃ x y, digitRun (c :: cs) = (x, y) := ⟨_, _, rfl⟩
          rw [hab] at h
          cases h
          obtain ⟨happ, -⟩ := digitRun_append _ _ _ hab
          have hlen2 : cs.length + 1 = a2.length + b2.length := by
            have := congrArg List.length happ
            simpa using this
          refine ⟨by omega, by simp; omega, ?_⟩
          intro p₀
          have hrun := digitRun_ws_append (c :: cs) a2 b2 t hab ht
          simp only [List.cons_append] at hrun
          have hlen : p + 1 + a2.length - p = 1 + a2.length := by omega
          simp [numFracPart, hd, hrun, hlen]
          omega
        · rw [if_neg hd] at h
          cases h
  · rw [if_neg hdot] at h
    cases h
    refine ⟨le_refl _, le_refl _, ?_⟩
    intro p₀
    have hdot' : ¬ (s ++ t).head? = some '.' := by
      cases s with
      | nil =>
        simp only [List.nil_append]
        cases t with
        | nil => simp
        | cons a as =>
          have := (pyIsSpace_facts a (ht a (by simp))).2.2.1
          simp [this]
      | cons a as => simpa using hdot
    unfold numFracPart
    rw [if_neg hdot']
    simp

/-- The exponent step is stable under appending whitespace-only input. -/
theorem numExpPart_okExt (s es r : List Char) (b : Bool) (p q : Nat) (t : List Char)
    (h : numExpPart s p = .ok ((es, b), r, q)) (ht : ∀ c ∈ t, pyIsSpace c = true) :
    p ≤ q ∧ r.length ≤ s.length ∧
      ∀ p₀, numExpPart (s ++ t) p₀ = .ok ((es, b), r ++ t, p₀ + (q - p)) := by
  unfold numExpPart at h
  by_cases hm : s.head? = some 'e' ∨ s.head? = some 'E'
  · rw [if_pos hm] at h
    cases s with
    | nil => cases h
    | cons m rest1 =>
      simp only [] at h
      have hm1 : m = 'e' ∨ m = 'E' := by simpa using hm
      by_cases hs : rest1.head? = some '+' ∨ rest1.head? = some '-'
      · rw [if_pos hs] at h
        cases rest1 with
        | nil => simp at hs
        | cons s1 rest1' =>
          have hs1 : s1 = '+' ∨ s1 = '-' := by simpa using hs
          simp only [List.take_succ_cons, List.take_zero, List.drop_succ_cons,
            List.drop_zero] at h
          cases rest1' with
          | nil => cases h
          | cons c cs =>
            simp only [] at h
            by_cases hd : pyIsDigit c
            · rw [if_pos hd] at h
              obtain ⟨a, b2, hab⟩ : ∃ x y, digitRun (c :: cs) = (x, y) := ⟨_, _, rfl⟩
              rw [hab] at h
              cases h
              obtain ⟨happ, -⟩ := digitRun_append _ _ _ hab
              have hlen2 : cs.length + 1 = a.length + b2.length := by
                have := congrArg List.length happ
                simpa using this
              refine ⟨by omega, by simp; omega, ?_⟩
              intro p₀
              have hrun := digitRun_ws_append (c :: cs) a b2 t hab ht
              simp only [List.cons_append] at hrun
              have hlen : p + 2 + a.length - p = 2 + a.length := by omega
              simp [numExpPart, hm1, hs1, hd, hrun, hlen]
              omega
            · rw [if_neg hd] at h
              cases h
      · rw [if_neg hs] at h
        simp only [] at h
        cases rest1 with
        | nil => cases h
        | cons c cs =>
          simp only [] at h
          by_cases hd : pyIsDigit c
          · rw [if_pos hd] at h
            obtain ⟨a, b2, hab⟩ : ∃ x y, digitRun (c :: cs) = (x, y) := ⟨_, _, rfl⟩
            rw [hab] at h
            cases h
            obtain ⟨happ, -⟩ := digitRun_append _ _ _ hab
            have hlen2 : cs.length + 1 = a.length + b2.length := by
              have := congrArg List.length happ
              simpa using this
            refine ⟨by omega, by simp; omega, ?_⟩
            intro p₀
            have hs' : ¬ (c = '+' ∨ c = '-') := by simpa using hs
            have hrun := digitRun_ws_append (c :: cs) a b2 t hab ht
            simp only [List.cons_append] at hrun
            have hlen : p + 1 + a.length - p = 1 + a.length := by omega
            simp [numExpPart, hm1, hs', hd, hrun, hlen]
            omega
          · rw [if_neg hd] at h
            cases h
  · rw [if_neg hm] at h
    cases h
    refine ⟨le_refl _, le_refl _, ?_⟩
    intro p₀
    have hm' : ¬ ((s ++ t).head? = some 'e' ∨ (s ++ t).head? = some 'E') := by
      cases s with
      | nil =>
        simp only [List.nil_append]
        cases t with
        | nil => simp
        | cons a as =>
          obtain ⟨-, -, -, he, hE, -, -⟩ := pyIsSpace_facts a (ht a (by simp))
          simp [he, hE]
      | cons a as => simpa using hm
    unfold numExpPart
    rw [if_neg hm']
    simp

/-- A successful `_parse_number` run is stable under appending
whitespace-only input and shifting the position. -/
theorem parseNumber_okExt (s : List Char) (p : Nat) (v : Value) (r : List Char)
    (q : Nat) (t : List Char) (h : parseNumber s p = .ok (v, r, q))
    (ht : ∀ c ∈ t, pyIsSpace c = true) :
    p ≤ q ∧ r.length ≤ s.length ∧
      ∀ p₀, parseNumber (s ++ t) p₀ = .ok (v, r ++ t, p₀ + (q - p)) := by
  unfold parseNumber at h
  obtain ⟨sg, r1, p1, hsgn⟩ : ∃ a b c, numSign s p = (a, b, c) := ⟨_, _, _, rfl⟩
  simp only [hsgn] at h
  split at h
  · cases h
  · rename_i intStr rest2 p2 hint
    split at h
    · cases h
    · rename_i fracStr isF1 rest3 p3 hfrac
      split at h
      · cases h
      · rename_i expStr isF2 rest6 p6 hexp
        obtain ⟨hsa, hsb, hsc⟩ := numSign_okExt s sg r1 p p1 t hsgn ht
        obtain ⟨hia, hib, hic⟩ := numIntPart_okExt r1 intStr rest2 p1 p2 t hint ht
        obtain ⟨hfa, hfb, hfc⟩ :=
          numFracPart_okExt rest2 fracStr rest3 isF1 p2 p3 t hfrac ht
        obtain ⟨hea, heb, hec⟩ :=
          numExpPart_okExt rest3 expStr rest6 isF2 p3 p6 t hexp ht
        have hlen : rest6.length ≤ s.length := by omega
        have hext : ∀ p₀, parseNumber (s ++ t) p₀ =
            .ok ((if isF1 || isF2 then
                Value.float (sg ++ intStr ++ fracStr ++ expStr)
              else Value.int (pyIntDec (sg ++ intStr ++ fracStr ++ expStr))),
              rest6 ++ t, p₀ + (p6 - p)) := by
          intro p₀
          unfold parseNumber
          rw [hsc p₀]
          simp only []
          rw [hic (p₀ + (p1 - p))]
          simp only []
          rw [hfc (p₀ + (p1 - p) + (p2 - p1))]
          simp only []
          rw [hec (p₀ + (p1 - p) + (p2 - p1) + (p3 - p2))]
          simp only []
          have harith : p₀ + (p1 - p) + (p2 - p1) + (p3 - p2) + (p6 - p3) =
              p₀ + (p6 - p) := by omega
          rw [harith]
          split <;> rfl
        split at h
        · rename_i hF
          injection h with h1
          cases h1
          refine ⟨by omega, hlen, ?_⟩
          intro p₀
          rw [hext p₀, if_pos hF]
        · rename_i hF
          injection h with h1
          cases h1
          refine ⟨by omega, hlen, ?_⟩
          intro p₀
          rw [hext p₀, if_neg hF]

/-- A successful run of the mutual `parse_value` / array-loop /
object-loop block is stable under more fuel, appending whitespace-only
input, and shifting the start position. -/
theorem value_okExt :
    ∀ (f : Nat),
      (∀ (rest : List Char) (p : Nat) (v : Value) (r' : List Char) (q : Nat),
        parseValue f rest p = .ok (v, r', q) →
        p ≤ q ∧ r'.length ≤ rest.length ∧
          ∀ (g : Nat), f ≤ g → ∀ (t : List Char), (∀ c ∈ t, pyIsSpace c = true) →
            ∀ (p₀ : Nat),
              parseValue g (rest ++ t) p₀ = .ok (v, r' ++ t, p₀ + (q - p))) ∧
      (∀ (acc : List Value) (rest : List Char) (p : Nat) (v : Value)
          (r' : List Char) (q : Nat),
        arrayItems f acc rest p = .ok (v, r', q) →
        p ≤ q ∧ r'.length ≤ rest.length ∧
          ∀ (g : Nat), f ≤ g → ∀ (t : List Char), (∀ c ∈ t, pyIsSpace c = true) →
            ∀ (p₀ : Nat),
              arrayItems g acc (rest ++ t) p₀ = .ok (v, r' ++ t, p₀ + (q - p))) ∧
      (∀ (acc : List (List Nat × Value)) (rest : List Char) (p : Nat) (v : Value)
          (r' : List Char) (q : Nat),
        objectItems f acc rest p = .ok (v, r', q) →
        p ≤ q ∧ r'.length ≤ rest.length ∧
          ∀ (g : Nat), f ≤ g → ∀ (t : List Char), (∀ c ∈ t, pyIsSpace c = true) →
            ∀ (p₀ : Nat),
              objectItems g acc (rest ++ t) p₀ = .ok (v, r' ++ t, p₀ + (q - p))) := by
  intro f
  induction f with
  | zero =>
    refine ⟨?_, ?_, ?_⟩
    · intro rest p v r' q h; cases h
    · intro acc rest p v r' q h; cases h
    · intro acc rest p v r' q h; cases h
  | succ f ih =>
    obtain ⟨ihV, ihA, ihO⟩ := ih
    refine ⟨?_, ?_, ?_⟩
    · -- parseValue (f+1)
      intro rest p v r' q h
      simp only [parseValue] at h
      obtain ⟨r0, q0, hskip⟩ : ∃ a b, skipWs rest p = (a, b) := ⟨_, _, rfl⟩
      simp only [hskip] at h
      cases r0 with
      | nil => simp only [List.head?_nil] at h; cases h
      | cons c r1 =>
        simp only [List.head?_cons] at h
        obtain ⟨hstop, hstopext⟩ := skipWs_stop_append rest p c r1 q0 hskip
        have hr0len : (c :: r1).length ≤ rest.length := by
          have := (skipWs_le rest p).1
          rw [hskip] at this
          exact this
        by_cases hc1 : c = 'n'
        · subst hc1
          rw [if_pos rfl] at h
          cases hkw : expectKeyword ['n', 'u', 'l', 'l'] ('n' :: r1) q0 with
          | error e => simp only [hkw] at h; cases h
          | ok trip =>
            obtain ⟨u, r2, q2⟩ := trip
            simp only [hkw] at h
            cases h
            obtain ⟨hka, hkb, hkc⟩ := expectKeyword_okExt _ _ _ _ _ _ hkw
            refine ⟨by omega, by omega, ?_⟩
            intro g hg t ht p₀
            obtain ⟨g2, rfl⟩ : ∃ g2, g = g2 + 1 := ⟨g - 1, by omega⟩
            have hse := hstopext t p₀
            have hke := hkc t (p₀ + (q0 - p))
            simp only [List.cons_append] at hke
            simp only [parseValue, hse, List.head?_cons]
            rw [if_pos (by decide)]
            simp only [hke]
            rw [show p₀ + (q0 - p) + (q - q0) = p₀ + (q - p) from by omega]
        · rw [if_neg hc1] at h
          by_cases hc2 : c = 't' ∨ c = 'f'
          · rw [if_pos hc2] at h
            by_cases hct : c = 't'
            · subst hct
              rw [if_pos rfl] at h
              cases hkw : expectKeyword ['t', 'r', 'u', 'e'] ('t' :: r1) q0 with
              | error e => simp only [hkw] at h; cases h
              | ok trip =>
                obtain ⟨u, r2, q2⟩ := trip
                simp only [hkw] at h
                cases h
                obtain ⟨hka, hkb, hkc⟩ := expectKeyword_okExt _ _ _ _ _ _ hkw
                refine ⟨by omega, by omega, ?_⟩
                intro g hg t ht p₀
                obtain ⟨g2, rfl⟩ : ∃ g2, g = g2 + 1 := ⟨g - 1, by omega⟩
                have hse := hstopext t p₀
                have hke := hkc t (p₀ + (q0 - p))
                simp only [List.cons_append] at hke
                simp only [parseValue, hse, List.head?_cons]
                rw [if_neg (by decide), if_pos (by decide), if_pos (by decide)]
                simp only [hke]
                rw [show p₀ + (q0 - p) + (q - q0) = p₀ + (q - p) from by omega]
            · rw [if_neg hct] at h
              have hcf : c = 'f' := by tauto
              subst hcf
              cases hkw : expectKeyword ['f', 'a', 'l', 's', 'e'] ('f' :: r1) q0 with
              | error e => simp only [hkw] at h; cases h
              | ok trip =>
                obtain ⟨u, r2, q2⟩ := trip
                simp only [hkw] at h
                cases h
                obtain ⟨hka, hkb, hkc⟩ := expectKeyword_okExt _ _ _ _ _ _ hkw
                refine ⟨by omega, by omega, ?_⟩
                intro g hg t ht p₀
                obtain ⟨g2, rfl⟩ : ∃ g2, g = g2 + 1 := ⟨g - 1, by omega⟩
                have hse := hstopext t p₀
                have hke := hkc t (p₀ + (q0 - p))
                simp only [List.cons_append] at hke
                simp only [parseValue, hse, List.head?_cons]
                rw [if_neg (by decide), if_pos (by decide), if_neg (by decide)]
                simp only [hke]
                rw [show p₀ + (q0 - p) + (q - q0) = p₀ + (q - p) from by omega]
          · rw [if_neg hc2] at h
            by_cases hc3 : c = '"'
            · subst hc3
              rw [if_pos rfl] at h
              cases hst : parseString ('"' :: r1) q0 with
              | error e => simp only [hst] at h; cases h
              | ok trip =>
                obtain ⟨cs, r2, q2⟩ := trip
                simp only [hst] at h
                cases h
                obtain ⟨hsa, hsb, hsc⟩ := parseString_okExt _ _ _ _ _ hst
                refine ⟨by omega, by omega, ?_⟩
                intro g hg t ht p₀
                obtain ⟨g2, rfl⟩ : ∃ g2, g = g2 + 1 := ⟨g - 1, by omega⟩
                have hse := hstopext t p₀
                have hsce := hsc t (p₀ + (q0 - p))
                simp only [List.cons_append] at hsce
                simp only [parseValue, hse, List.head?_cons]
                rw [if_neg (by decide), if_neg (by decide), if_pos (by decide)]
                simp only [hsce]
                rw [show p₀ + (q0 - p) + (q - q0) = p₀ + (q - p) from by omega]
            · rw [if_neg hc3] at h
              by_cases hc4 : c = '['
              · subst hc4
                rw [if_pos rfl] at h
                simp only [List.tail_cons] at h
                obtain ⟨r2, q2, hskip2⟩ : ∃ a b, skipWs r1 (q0 + 1) = (a, b) :=
                  ⟨_, _, rfl⟩
                simp only [hskip2] at h
                have hr2len : r2.length ≤ r1.length := by
                  have := (skipWs_le r1 (q0 + 1)).1
                  rw [hskip2] at this
                  exact this
                have hq2ge : q0 + 1 ≤ q2 := by
                  have := (skipWs_le r1 (q0 + 1)).2
                  rw [hskip2] at this
                  exact this
                by_cases hbr : r2.head? = some ']'
                · rw [if_pos hbr] at h
                  cases h
                  obtain ⟨r3, rfl⟩ : ∃ x, r2 = ']' :: x := by
                    cases r2 with
                    | nil => simp at hbr
                    | cons a b =>
                      simp only [List.head?_cons, Option.some.injEq] at hbr
                      subst hbr
                      exact ⟨b, rfl⟩
                  obtain ⟨hs2a, hs2ext⟩ :=
                    skipWs_stop_append r1 (q0 + 1) ']' r3 q2 hskip2
                  refine ⟨by omega, ?_, ?_⟩
                  · simp only [List.tail_cons]
                    simp only [List.length_cons] at hr2len hr0len
                    omega
                  · intro g hg t ht p₀
                    obtain ⟨g2, rfl⟩ : ∃ g2, g = g2 + 1 := ⟨g - 1, by omega⟩
                    have hse := hstopext t p₀
                    have hs2e := hs2ext t (p₀ + (q0 - p) + 1)
                    simp only [parseValue, hse, List.head?_cons, List.tail_cons,
                      hs2e]
                    rw [if_neg (by decide), if_neg (by decide), if_neg (by decide), if_pos (by decide)]
                    rw [if_pos (by decide)]
                    rw [show p₀ + (q0 - p) + 1 + (q2 - (q0 + 1)) + 1 =
                      p₀ + (q2 + 1 - p) from by omega]
                · rw [if_neg hbr] at h
                  obtain ⟨r2c, r3, rfl⟩ : ∃ a b, r2 = a :: b := by
                    cases r2 with
                    | nil => exact absurd h (arrayItems_nil _ _ _ _ _ _)
                    | cons a b => exact ⟨a, b, rfl⟩
                  obtain ⟨hs2a, hs2ext⟩ :=
                    skipWs_stop_append r1 (q0 + 1) r2c r3 q2 hskip2
                  obtain ⟨haa, hab2, hac⟩ := ihA [] (r2c :: r3) q2 v r' q h
                  refine ⟨by omega, ?_, ?_⟩
                  · simp only [List.length_cons] at hab2 hr2len hr0len
                    omega
                  · intro g hg t ht p₀
                    obtain ⟨g2, rfl⟩ : ∃ g2, g = g2 + 1 := ⟨g - 1, by omega⟩
                    have hse := hstopext t p₀
                    have hs2e := hs2ext t (p₀ + (q0 - p) + 1)
                    have hae := hac g2 (by omega) t ht
                      (p₀ + (q0 - p) + 1 + (q2 - (q0 + 1)))
                    simp only [List.cons_append] at hae
                    simp only [List.head?_cons, Option.some.injEq] at hbr
                    simp only [parseValue, hse, List.head?_cons, List.tail_cons,
                      hs2e]
                    rw [if_neg (by decide), if_neg (by decide), if_neg (by decide), if_pos (by decide)]
                    rw [if_neg (by simpa using hbr)]
                    rw [hae]
                    rw [show p₀ + (q0 - p) + 1 + (q2 - (q0 + 1)) + (q - q2) =
                      p₀ + (q - p) from by omega]
              · rw [if_neg hc4] at h
                by_cases hc5 : c = '{'
                · subst hc5
                  rw [if_pos rfl] at h
                  simp only [List.tail_cons] at h
                  obtain ⟨r2, q2, hskip2⟩ : ∃ a b, skipWs r1 (q0 + 1) = (a, b) :=
                    ⟨_, _, rfl⟩
                  simp only [hskip2] at h
                  have hr2len : r2.length ≤ r1.length := by
                    have := (skipWs_le r1 (q0 + 1)).1
                    rw [hskip2] at this
                    exact this
                  have hq2ge : q0 + 1 ≤ q2 := by
                    have := (skipWs_le r1 (q0 + 1)).2
                    rw [hskip2] at this
                    exact this
                  by_cases hbr : r2.head? = some '}'
                  · rw [if_pos hbr] at h
                    cases h
                    obtain ⟨r3, rfl⟩ : ∃ x, r2 = '}' :: x := by
                      cases r2 with
                      | nil => simp at hbr
                      | cons a b =>
                        simp only [List.head?_cons, Option.some.injEq] at hbr
                        subst hbr
                        exact ⟨b, rfl⟩
                    obtain ⟨hs2a, hs2ext⟩ :=
                      skipWs_stop_append r1 (q0 + 1) '}' r3 q2 hskip2
                    refine ⟨by omega, ?_, ?_⟩
                    · simp only [List.tail_cons]
                      simp only [List.length_cons] at hr2len hr0len
                      omega
                    · intro g hg t ht p₀
                      obtain ⟨g2, rfl⟩ : ∃ g2, g = g2 + 1 := ⟨g - 1, by omega⟩
                      have hse := hstopext t p₀
                      have hs2e := hs2ext t (p₀ + (q0 - p) + 1)
                      simp only [parseValue, hse, List.head?_cons, List.tail_cons,
                        hs2e]
                      rw [if_neg (by decide), if_neg (by decide), if_neg (by decide), if_neg (by decide), if_pos (by decide)]
                      rw [if_pos (by decide)]
                      rw [show p₀ + (q0 - p) + 1 + (q2 - (q0 + 1)) + 1 =
                        p₀ + (q2 + 1 - p) from by omega]
                  · rw [if_neg hbr] at h
                    obtain ⟨r2c, r3, rfl⟩ : ∃ a b, r2 = a :: b := by
                      cases r2 with
                      | nil => exact absurd h (objectItems_nil _ _ _ _ _ _)
                      | cons a b => exact ⟨a, b, rfl⟩
                    obtain ⟨hs2a, hs2ext⟩ :=
                      skipWs_stop_append r1 (q0 + 1) r2c r3 q2 hskip2
                    obtain ⟨haa, hab2, hac⟩ := ihO [] (r2c :: r3) q2 v r' q h
                    refine ⟨by omega, ?_, ?_⟩
                    · simp only [List.length_cons] at hab2 hr2len hr0len
                      omega
                    · intro g hg t ht p₀
                      obtain ⟨g2, rfl⟩ : ∃ g2, g = g2 + 1 := ⟨g - 1, by omega⟩
                      have hse := hstopext t p₀
                      have hs2e := hs2ext t (p₀ + (q0 - p) + 1)
                      have hae := hac g2 (by omega) t ht
                        (p₀ + (q0 - p) + 1 + (q2 - (q0 + 1)))
                      simp only [List.cons_append] at hae
                      simp only [List.head?_cons, Option.some.injEq] at hbr
                      simp only [parseValue, hse, List.head?_cons, List.tail_cons,
                        hs2e]
                      rw [if_neg (by decide), if_neg (by decide), if_neg (by decide), if_neg (by decide), if_pos (by decide)]
                      rw [if_neg (by simpa using hbr)]
                      rw [hae]
                      rw [show p₀ + (q0 - p) + 1 + (q2 - (q0 + 1)) + (q - q2) =
                        p₀ + (q - p) from by omega]
                · rw [if_neg hc5] at h
                  by_cases hc6 : c = '-' ∨ pyIsDigit c = true
                  · rw [if_pos hc6] at h
                    obtain ⟨hna, hnb, _⟩ :=
                      parseNumber_okExt (c :: r1) q0 v r' q [] h (by simp)
                    refine ⟨by omega, by omega, ?_⟩
                    intro g hg t ht p₀
                    obtain ⟨g2, rfl⟩ : ∃ g2, g = g2 + 1 := ⟨g - 1, by omega⟩
                    have hse := hstopext t p₀
                    obtain ⟨h1x, h2x, hnc⟩ :=
                      parseNumber_okExt (c :: r1) q0 v r' q t h ht
                    have hne := hnc (p₀ + (q0 - p))
                    simp only [List.cons_append] at hne
                    simp only [parseValue, hse, List.head?_cons]
                    rw [if_neg hc1, if_neg hc2, if_neg hc3, if_neg hc4,
                      if_neg hc5, if_pos hc6]
                    rw [hne]
                    rw [show p₀ + (q0 - p) + (q - q0) = p₀ + (q - p) from by omega]
                  · rw [if_neg hc6] at h
                    cases h
    · -- arrayItems (f+1)
      intro acc rest p v r' q h
      simp only [arrayItems] at h
      cases hpv : parseValue f rest p with
      | error e => simp only [hpv] at h; cases h
      | ok trip =>
        obtain ⟨v1, r1, p1⟩ := trip
        simp only [hpv] at h
        obtain ⟨hva, hvb, hvc⟩ := ihV rest p v1 r1 p1 hpv
        obtain ⟨r2, p2, hskip1⟩ : ∃ a b, skipWs r1 p1 = (a, b) := ⟨_, _, rfl⟩
        simp only [hskip1] at h
        have hr2len : r2.length ≤ r1.length := by
          have := (skipWs_le r1 p1).1
          rw [hskip1] at this
          exact this
        have hp2ge : p1 ≤ p2 := by
          have := (skipWs_le r1 p1).2
          rw [hskip1] at this
          exact this
        by_cases hcomma : r2.head? = some ','
        · rw [if_pos hcomma] at h
          obtain ⟨r3a, rfl⟩ : ∃ x, r2 = ',' :: x := by
            cases r2 with
            | nil => simp at hcomma
            | cons a b =>
              simp only [List.head?_cons, Option.some.injEq] at hcomma
              subst hcomma
              exact ⟨b, rfl⟩
          simp only [List.tail_cons] at h
          obtain ⟨r3, p3, hskip2⟩ : ∃ a b, skipWs r3a (p2 + 1) = (a, b) :=
            ⟨_, _, rfl⟩
          simp only [hskip2] at h
          have hr3len : r3.length ≤ r3a.length := by
            have := (skipWs_le r3a (p2 + 1)).1
            rw [hskip2] at this
            exact this
          obtain ⟨r3c, r3t, rfl⟩ : ∃ a b, r3 = a :: b := by
            cases r3 with
            | nil => exact absurd h (arrayItems_nil _ _ _ _ _ _)
            | cons a b => exact ⟨a, b, rfl⟩
          obtain ⟨hs1a, hs1ext⟩ := skipWs_stop_append r1 p1 ',' r3a p2 hskip1
          obtain ⟨hs2a, hs2ext⟩ :=
            skipWs_stop_append r3a (p2 + 1) r3c r3t p3 hskip2
          obtain ⟨haa, hab, hac⟩ := ihA (acc ++ [v1]) (r3c :: r3t) p3 v r' q h
          refine ⟨by omega, ?_, ?_⟩
          · simp only [List.length_cons] at hab hr2len hr3len
            omega
          · intro g hg t ht p₀
            obtain ⟨g2, rfl⟩ : ∃ g2, g = g2 + 1 := ⟨g - 1, by omega⟩
            have hve := hvc g2 (by omega) t ht p₀
            have hs1e := hs1ext t (p₀ + (p1 - p))
            have hs2e := hs2ext t (p₀ + (p1 - p) + (p2 - p1) + 1)
            have hae := hac g2 (by omega) t ht
              (p₀ + (p1 - p) + (p2 - p1) + 1 + (p3 - (p2 + 1)))
            simp only [List.cons_append] at hae
            simp only [arrayItems, hve, hs1e, List.head?_cons, List.tail_cons,
              hs2e]
            rw [if_pos (by decide)]
            rw [hae]
            rw [show p₀ + (p1 - p) + (p2 - p1) + 1 + (p3 - (p2 + 1)) + (q - p3) =
              p₀ + (q - p) from by omega]
        · rw [if_neg hcomma] at h
          by_cases hbk : r2.head? = some ']'
          · rw [if_pos hbk] at h
            cases h
            obtain ⟨r3a, rfl⟩ : ∃ x, r2 = ']' :: x := by
              cases r2 with
              | nil => simp at hbk
              | cons a b =>
                simp only [List.head?_cons, Option.some.injEq] at hbk
                subst hbk
                exact ⟨b, rfl⟩
            obtain ⟨hs1a, hs1ext⟩ := skipWs_stop_append r1 p1 ']' r3a p2 hskip1
            refine ⟨by omega, ?_, ?_⟩
            · simp only [List.tail_cons]
              simp only [List.length_cons] at hr2len
              omega
            · intro g hg t ht p₀
              obtain ⟨g2, rfl⟩ : ∃ g2, g = g2 + 1 := ⟨g - 1, by omega⟩
              have hve := hvc g2 (by omega) t ht p₀
              have hs1e := hs1ext t (p₀ + (p1 - p))
              simp only [arrayItems, hve, hs1e, List.head?_cons, List.tail_cons]
              rw [if_neg (by decide), if_pos (by decide)]
              rw [show p₀ + (p1 - p) + (p2 - p1) + 1 = p₀ + (p2 + 1 - p)
                from by omega]
          · rw [if_neg hbk] at h
            cases h
    · -- objectItems (f+1)
      intro acc rest p v r' q h
      simp only [objectItems] at h
      obtain ⟨r1, p1, hskip1⟩ : ∃ a b, skipWs rest p = (a, b) := ⟨_, _, rfl⟩
      simp only [hskip1] at h
      have hr1len : r1.length ≤ rest.length := by
        have := (skipWs_le rest p).1
        rw [hskip1] at this
        exact this
      by_cases hqo : r1.head? = some '"'
      · rw [if_pos hqo] at h
        obtain ⟨r1t, rfl⟩ : ∃ x, r1 = '"' :: x := by
          cases r1 with
          | nil => simp at hqo
          | cons a b =>
            simp only [List.head?_cons, Option.some.injEq] at hqo
            subst hqo
            exact ⟨b, rfl⟩
        obtain ⟨hs1a, hs1ext⟩ := skipWs_stop_append rest p '"' r1t p1 hskip1
        cases hst : parseString ('"' :: r1t) p1 with
        | error e => simp only [hst] at h; cases h
        | ok trip =>
          obtain ⟨key, r2, p2⟩ := trip
          simp only [hst] at h
          obtain ⟨hsa, hsb, hsc⟩ := parseString_okExt _ _ _ _ _ hst
          obtain ⟨r3, p3, hskip3⟩ : ∃ a b, skipWs r2 p2 = (a, b) := ⟨_, _, rfl⟩
          simp only [hskip3] at h
          have hr3len : r3.length ≤ r2.length := by
            have := (skipWs_le r2 p2).1
            rw [hskip3] at this
            exact this
          cases hex : expect ':' r3 p3 with
          | error e => simp only [hex] at h; cases h
          | ok trip2 =>
            obtain ⟨u, r4, p4⟩ := trip2
            simp only [hex] at h
            obtain ⟨hexh, hexr, hexq⟩ := expect_ok ':' r3 r4 p3 p4 u hex
            obtain ⟨r3t, rfl⟩ : ∃ x, r3 = ':' :: x := by
              cases r3 with
              | nil => simp at hexh
              | cons a b =>
                simp only [List.head?_cons, Option.some.injEq] at hexh
                subst hexh
                exact ⟨b, rfl⟩
            simp only [List.tail_cons] at hexr
            subst hexr
            subst hexq
            obtain ⟨hs3a, hs3ext⟩ := skipWs_stop_append r2 p2 ':' r4 p3 hskip3
            cases hpv : parseValue f r4 (p3 + 1) with
            | error e => simp only [hpv] at h; cases h
            | ok trip3 =>
              obtain ⟨v1, r5, p5⟩ := trip3
              simp only [hpv] at h
              obtain ⟨hva, hvb, hvc⟩ := ihV r4 (p3 + 1) v1 r5 p5 hpv
              obtain ⟨r6, p6, hskip6⟩ : ∃ a b, skipWs r5 p5 = (a, b) :=
                ⟨_, _, rfl⟩
              simp only [hskip6] at h
              have hr6len : r6.length ≤ r5.length := by
                have := (skipWs_le r5 p5).1
                rw [hskip6] at this
                exact this
              by_cases hcomma : r6.head? = some ','
              · rw [if_pos hcomma] at h
                obtain ⟨r6t, rfl⟩ : ∃ x, r6 = ',' :: x := by
                  cases r6 with
                  | nil => simp at hcomma
                  | cons a b =>
                    simp only [List.head?_cons, Option.some.injEq] at hcomma
                    subst hcomma
                    exact ⟨b, rfl⟩
                simp only [List.tail_cons] at h
                obtain ⟨hs6a, hs6ext⟩ :=
                  skipWs_stop_append r5 p5 ',' r6t p6 hskip6
                obtain ⟨hoa, hob, hoc⟩ :=
                  ihO (dictAssign acc key v1) r6t (p6 + 1) v r' q h
                refine ⟨by omega, ?_, ?_⟩
                · simp only [List.length_cons] at hob hr6len hr3len hsb hr1len
                  omega
                · intro g hg t ht p₀
                  obtain ⟨g2, rfl⟩ : ∃ g2, g = g2 + 1 := ⟨g - 1, by omega⟩
                  have hs1e := hs1ext t p₀
                  have hste := hsc t (p₀ + (p1 - p))
                  simp only [List.cons_append] at hste
                  have hs3e := hs3ext t (p₀ + (p1 - p) + (p2 - p1))
                  have hve := hvc g2 (by omega) t ht
                    (p₀ + (p1 - p) + (p2 - p1) + (p3 - p2) + 1)
                  have hs6e := hs6ext t
                    (p₀ + (p1 - p) + (p2 - p1) + (p3 - p2) + 1 + (p5 - (p3 + 1)))
                  have hoe := hoc g2 (by omega) t ht
                    (p₀ + (p1 - p) + (p2 - p1) + (p3 - p2) + 1 + (p5 - (p3 + 1))
                      + (p6 - p5) + 1)
                  simp only [objectItems, hs1e, List.head?_cons, hste, hs3e,
                    expect, List.tail_cons, hve, hs6e]
                  rw [if_pos (by decide)]
                  rw [if_pos (by decide)]
                  simp only [hve, hs6e, List.head?_cons, List.tail_cons]
                  rw [if_pos (by decide)]
                  rw [hoe]
                  rw [show p₀ + (p1 - p) + (p2 - p1) + (p3 - p2) + 1
                      + (p5 - (p3 + 1)) + (p6 - p5) + 1 + (q - (p6 + 1)) =
                    p₀ + (q - p) from by omega]
              · rw [if_neg hcomma] at h
                by_cases hbk : r6.head? = some '}'
                · rw [if_pos hbk] at h
                  cases h
                  obtain ⟨r6t, rfl⟩ : ∃ x, r6 = '}' :: x := by
                    cases r6 with
                    | nil => simp at hbk
                    | cons a b =>
                      simp only [List.head?_cons, Option.some.injEq] at hbk
                      subst hbk
                      exact ⟨b, rfl⟩
                  obtain ⟨hs6a, hs6ext⟩ :=
                    skipWs_stop_append r5 p5 '}' r6t p6 hskip6
                  refine ⟨by omega, ?_, ?_⟩
                  · simp only [List.tail_cons]
                    simp only [List.length_cons] at hr6len hr3len hsb hr1len
                    omega
                  · intro g hg t ht p₀
                    obtain ⟨g2, rfl⟩ : ∃ g2, g = g2 + 1 := ⟨g - 1, by omega⟩
                    have hs1e := hs1ext t p₀
                    have hste := hsc t (p₀ + (p1 - p))
                    simp only [List.cons_append] at hste
                    have hs3e := hs3ext t (p₀ + (p1 - p) + (p2 - p1))
                    have hve := hvc g2 (by omega) t ht
                      (p₀ + (p1 - p) + (p2 - p1) + (p3 - p2) + 1)
                    have hs6e := hs6ext t
                      (p₀ + (p1 - p) + (p2 - p1) + (p3 - p2) + 1
                        + (p5 - (p3 + 1)))
                    simp only [objectItems, hs1e, List.head?_cons, hste, hs3e,
                      expect, List.tail_cons, hve, hs6e]
                    rw [if_pos (by decide)]
                    rw [if_pos (by decide)]
                    simp only [hve, hs6e, List.head?_cons, List.tail_cons]
                    rw [if_neg (by decide), if_pos (by decide)]
                    rw [show p₀ + (p1 - p) + (p2 - p1) + (p3 - p2) + 1
                        + (p5 - (p3 + 1)) + (p6 - p5) + 1 =
                      p₀ + (p6 + 1 - p) from by omega]
                · rw [if_neg hbk] at h
                  cases h
      · rw [if_neg hqo] at h
        cases h


/-- C9: parsing is whitespace-insensitive at the outer boundaries: for
every input accepted by `parse_json`, surrounding it with additional
whitespace yields the same structurally equal value; in particular
`parse_json` on `  { "key" : "value" }  ` returns the same result as
on `{"key":"value"}`. -/
theorem whitespace_insensitive :
    (∀ (w wt s : List Char) (v : Value),
      (∀ c ∈ w, pyIsSpace c = true) → (∀ c ∈ wt, pyIsSpace c = true) →
      parseJson s = .ok v → parseJson (w ++ s ++ wt) = .ok v) ∧
    parseJson "  \x7b \"key\" : \"value\" \x7d  ".data =
      parseJson "\x7b\"key\":\"value\"\x7d".data := by
  constructor
  · intro w wt s v hw hwt hok
    simp only [parseJson, parse] at hok ⊢
    obtain ⟨r, p, hskip⟩ : ∃ a b, skipWs s 0 = (a, b) := ⟨_, _, rfl⟩
    simp only [hskip] at hok
    cases hpv : parseValue (2 * s.length + 2) r p with
    | error e => simp only [hpv] at hok; cases hok
    | ok trip =>
      obtain ⟨v1, r1, p1⟩ := trip
      simp only [hpv] at hok
      obtain ⟨r2, p2, hskip2⟩ : ∃ a b, skipWs r1 p1 = (a, b) := ⟨_, _, rfl⟩
      simp only [hskip2] at hok
      cases r2 with
      | cons a b => rw [if_neg (by simp)] at hok; cases hok
      | nil =>
        rw [if_pos (by rfl)] at hok
        cases hok
        obtain ⟨c, rr, rfl⟩ : ∃ a b, r = a :: b := by
          cases r with
          | nil => exact absurd hpv (parseValue_nil _ _ _ _ _)
          | cons a b => exact ⟨a, b, rfl⟩
        obtain ⟨hstop, hstopext⟩ := skipWs_stop_append s 0 c rr p hskip
        obtain ⟨hva, hvb, hvc⟩ :=
          (value_okExt (2 * s.length + 2)).1 (c :: rr) p v r1 p1 hpv
        have hpre : skipWs ((w ++ s) ++ wt) 0 =
            (c :: (rr ++ wt), 0 + w.length + (p - 0)) := by
          rw [List.append_assoc, skipWs_ws_prefix w hw (s ++ wt) 0,
            hstopext wt (0 + w.length)]
        simp only [hpre]
        have hve := hvc (2 * ((w ++ s) ++ wt).length + 2)
          (by simp only [List.length_append]; omega) wt hwt
          (0 + w.length + (p - 0))
        simp only [List.cons_append] at hve
        simp only [hve]
        have hr1ws := (skipWs_nil r1 p1 p2 hskip2).1
        have hall : ∀ x ∈ r1 ++ wt, pyIsSpace x = true := by
          intro x hx
          rcases List.mem_append.mp hx with h1 | h2
          · exact hr1ws x h1
          · exact hwt x h2
        have hfin := skipWs_allWs (r1 ++ wt) hall
          (0 + w.length + (p - 0) + (p1 - p))
        simp only [hfin]
        rw [if_pos (by rfl)]
  · rfl

theorem whitespace_insensitive_witness :
    parseJson ([' '] ++ "null".data ++ [' ']) = .ok Value.null :=
  whitespace_insensitive.1 [' '] [' '] "null".data Value.null
    (by decide) (by decide) (by rfl)
